import Mathlib

set_option maxRecDepth 40000

/-!
Verification of the text-reconstruction pipeline of src/hearsay/pdf.py.

The pipeline is modelled as executable functions over lists of characters
(strings are unpacked at the boundary).  Python string primitives used by
the source (str.strip, str.split, str.isupper, character classes of the
re module) are modelled for the ASCII range, which is the range exercised
by the pipeline and by every claim.
-/

namespace Hearsay

/-- Whitespace set stripped by Python str.strip and matched by the regex
class backslash-s, restricted to ASCII. -/
def isSpaceChar (c : Char) : Bool :=
  c = ' ' || c = '\t' || c = '\n' || c = '\r' || c = '\x0b' || c = '\x0c'

/-- Word character of the regex class backslash-w (ASCII model). -/
def isWordChar (c : Char) : Bool :=
  c.isAlphanum || c = '_'

/-- Model of Python str.strip with no argument: remove leading and
trailing whitespace. -/
def pyStrip (cs : List Char) : List Char :=
  ((cs.dropWhile isSpaceChar).reverse.dropWhile isSpaceChar).reverse

/-- Model of Python str.split by a single newline separator:
text.split with separator newline.  The empty string yields one empty
line, as in Python. -/
def splitNL : List Char → List (List Char)
  | [] => [[]]
  | c :: rest =>
    if c = '\n' then [] :: splitNL rest
    else
      match splitNL rest with
      | l :: ls => (c :: l) :: ls
      | [] => [[c]]

/-- Model of joining lines with a newline separator. -/
def joinNL : List (List Char) → List Char
  | [] => []
  | [l] => l
  | l :: ls => l ++ '\n' :: joinNL ls

theorem dropWhile_length_le (p : Char → Bool) (l : List Char) :
    (l.dropWhile p).length ≤ l.length := by
  induction l with
  | nil => simp [List.dropWhile]
  | cons c rest ih =>
    simp only [List.dropWhile]
    split
    · exact Nat.le_succ_of_le ih
    · simp

/-- Model of Python str.split with no argument: split on whitespace runs,
dropping empty pieces. -/
def pySplit (cs : List Char) : List (List Char) :=
  (List.splitOnP isSpaceChar cs).filter (fun l => l ≠ [])

/-- Model of re.sub of the pattern of one-or-more spaces-or-tabs by a
single space: collapse each maximal run of spaces and tabs to one space.
In a run, every character but the last is dropped; the last is emitted as
one space. -/
def collapseSpaces : List Char → List Char
  | [] => []
  | c :: rest =>
    if (c = ' ' || c = '\t') &&
        (match rest.head? with | some d => d = ' ' || d = '\t' | none => false) then
      collapseSpaces rest
    else if c = ' ' || c = '\t' then ' ' :: collapseSpaces rest
    else c :: collapseSpaces rest

/-- Model of re.sub of the pattern of three-or-more newlines by two
newlines: collapse each maximal run of at least three newlines to exactly
two.  A newline followed by at least two further newlines is dropped, so
of a run of three or more exactly the last two remain. -/
def collapseNL : List Char → List Char
  | [] => []
  | c :: rest =>
    if c = '\n' && rest.take 2 = ['\n', '\n'] then collapseNL rest
    else c :: collapseNL rest

/-- Expansion of one ligature glyph, as in the ligatures table of
clean_text. -/
def expandLigature (c : Char) : List Char :=
  if c = 'ﬁ' then ['f', 'i']
  else if c = 'ﬂ' then ['f', 'l']
  else if c = 'ﬀ' then ['f', 'f']
  else if c = 'ﬃ' then ['f', 'f', 'i']
  else if c = 'ﬄ' then ['f', 'f', 'l']
  else [c]

/-- Model of the sequence of str.replace calls over the ligatures table of
clean_text.  No ligature occurs in any replacement, so the sequential
replacement equals a single character-wise expansion. -/
def fixLigatures (cs : List Char) : List Char :=
  cs.flatMap expandLigature

/-!
Regular-expression engine used to model the re.sub calls of clean_text.
The engine is a backtracking matcher whose result list is ordered by the
backtracking priority of the Python re module: alternation prefers the
left branch, a greedy star prefers more iterations, a lazy star prefers
fewer.  A match state carries the previously consumed character, which
decides the multiline anchors.  Star unfolding is bounded by fuel; every
star body in the translated pattern tables consumes at least one
character, so fuel of input length plus two is exact.
-/

/-- Syntax of the regular expressions appearing in the pattern tables. -/
inductive RE where
  | eps
  | cls (p : Char → Bool)
  | seq (a b : RE)
  | alt (a b : RE)
  | star (greedy : Bool) (a : RE)
  | look (a : RE)
  | bol
  | eol

/-- Matcher state: previously consumed character (none at the start of
the subject) and remaining input. -/
abbrev MState := Option Char × List Char

/-- One layer of the backtracking matcher: all constructors except the
star, which is delegated to the given star interpretation.  Results are
listed in backtracking priority order: alternation prefers the left
branch.  The bol and eol anchors follow multiline semantics: bol holds at
the start of the subject or after a newline, eol at the end or before a
newline.  Patterns compiled without re.MULTILINE are modelled separately
as direct functions. -/
def mrunAux (starRun : Bool → RE → Option Char → List Char → List MState) :
    RE → Option Char → List Char → List MState
  | .eps, prev, s => [(prev, s)]
  | .cls p, prev, s =>
    match s with
    | [] => []
    | c :: r => if p c then [(some c, r)] else []
  | .seq a b, prev, s =>
    (mrunAux starRun a prev s).flatMap (fun st => mrunAux starRun b st.1 st.2)
  | .alt a b, prev, s => mrunAux starRun a prev s ++ mrunAux starRun b prev s
  | .star g a, prev, s => starRun g a prev s
  | .look a, prev, s =>
    if (mrunAux starRun a prev s).isEmpty then [] else [(prev, s)]
  | .bol, prev, s =>
    if prev = none || prev = some '\n' then [(prev, s)] else []
  | .eol, prev, s =>
    match s with
    | [] => [(prev, s)]
    | c :: _ => if c = '\n' then [(prev, s)] else []

/-- Backtracking matcher.  Star unfolding is bounded by fuel: a greedy
star prefers more iterations, a lazy star fewer.  Every star body in the
translated pattern tables consumes at least one character, so fuel of
input length plus two is exact. -/
def mrun : Nat → RE → Option Char → List Char → List MState
  | 0 => mrunAux (fun _ _ prev s => [(prev, s)])
  | fuel + 1 => mrunAux (fun g a prev s =>
      let deeper := (mrun fuel a prev s).flatMap
        (fun st => mrun fuel (.star g a) st.1 st.2)
      if g then deeper ++ [(prev, s)] else (prev, s) :: deeper)

/-- Every end state of one matcher layer is a suffix of the subject,
provided the star interpretation has the same property. -/
theorem mrunAux_suffix (starRun : Bool → RE → Option Char → List Char → List MState)
    (hstar : ∀ g a prev s st, st ∈ starRun g a prev s → st.2 <:+ s)
    (re : RE) (prev : Option Char) (s : List Char) :
    ∀ st ∈ mrunAux starRun re prev s, st.2 <:+ s := by
  induction re generalizing prev s with
  | eps =>
    intro st h
    simp only [mrunAux, List.mem_singleton] at h
    subst h
    exact List.suffix_rfl
  | cls p =>
    intro st h
    match s with
    | [] => simp [mrunAux] at h
    | c :: r =>
      simp only [mrunAux] at h
      split at h
      · simp only [List.mem_singleton] at h
        subst h
        exact List.suffix_cons c r
      · simp at h
  | seq a b iha ihb =>
    intro st h
    simp only [mrunAux, List.mem_flatMap] at h
    obtain ⟨st1, h1, h2⟩ := h
    exact (ihb st1.1 st1.2 st h2).trans (iha prev s st1 h1)
  | alt a b iha ihb =>
    intro st h
    simp only [mrunAux, List.mem_append] at h
    rcases h with h | h
    · exact iha prev s st h
    · exact ihb prev s st h
  | star g a iha =>
    intro st h
    exact hstar g a prev s st h
  | look a iha =>
    intro st h
    simp only [mrunAux] at h
    split at h
    · simp at h
    · simp only [List.mem_singleton] at h
      subst h
      exact List.suffix_rfl
  | bol =>
    intro st h
    simp only [mrunAux] at h
    split at h
    · simp only [List.mem_singleton] at h
      subst h
      exact List.suffix_rfl
    · simp at h
  | eol =>
    intro st h
    match s with
    | [] =>
      simp only [mrunAux, List.mem_singleton] at h
      subst h
      exact List.suffix_rfl
    | c :: r =>
      simp only [mrunAux] at h
      split at h
      · simp only [List.mem_singleton] at h
        subst h
        exact List.suffix_rfl
      · simp at h

/-- Every match end state is a suffix of the subject it was started on. -/
theorem mrun_suffix (fuel : Nat) (re : RE) (prev : Option Char) (s : List Char) :
    ∀ st ∈ mrun fuel re prev s, st.2 <:+ s := by
  induction fuel generalizing re prev s with
  | zero =>
    apply mrunAux_suffix
    intro g a prev1 s1 st h
    simp only [List.mem_singleton] at h
    subst h
    exact List.suffix_rfl
  | succ fuel ih =>
    apply mrunAux_suffix
    intro g a prev1 s1 st h
    dsimp only at h
    have hd : st ∈ (mrun fuel a prev1 s1).flatMap
        (fun st => mrun fuel (.star g a) st.1 st.2) → st.2 <:+ s1 := by
      intro hm
      simp only [List.mem_flatMap] at hm
      obtain ⟨st1, h1, h2⟩ := hm
      exact (ih (.star g a) st1.1 st1.2 st h2).trans (ih a prev1 s1 st1 h1)
    split at h
    · simp only [List.mem_append, List.mem_singleton] at h
      rcases h with h | h
      · exact hd h
      · subst h
        exact List.suffix_rfl
    · simp only [List.mem_cons] at h
      rcases h with h | h
      · subst h
        exact List.suffix_rfl
      · exact hd h

/-- Model of re.sub with empty replacement: scan left to right; at each
position take the first match in backtracking priority order; a match
consuming at least one character is removed and scanning resumes at its
end; otherwise the character is kept and scanning advances by one.  The
patterns of clean_text cannot match the empty string, so the empty-match
branch only mirrors the advance of the Python scanner.  The scan is
bounded by fuel; every step advances by at least one character, so fuel
of the input length is exact. -/
def subGo (re : RE) : Nat → Option Char → List Char → List Char
  | 0, _, s => s
  | fuel + 1, prev, s =>
    match s with
    | [] => []
    | c :: rest =>
      match (mrun (rest.length + 2) re prev (c :: rest)).head? with
      | some st =>
        if st.2.length < rest.length + 1 then subGo re fuel st.1 st.2
        else c :: subGo re fuel (some c) rest
      | none => c :: subGo re fuel (some c) rest

/-- Model of one re.sub call with empty replacement over a whole text. -/
def subAll (re : RE) (cs : List Char) : List Char :=
  subGo re cs.length none cs

/-- Substitution with empty replacement only deletes characters: every
character of the output occurs in the input. -/
theorem subGo_subset (re : RE) (fuel : Nat) (prev : Option Char) (s : List Char) :
    ∀ c ∈ subGo re fuel prev s, c ∈ s := by
  induction fuel generalizing prev s with
  | zero => intro c hc; exact hc
  | succ fuel ih =>
    intro c hc
    match s with
    | [] => simp [subGo] at hc
    | a :: rest =>
      rw [subGo] at hc
      split at hc
      case h_1 st hm =>
        split at hc
        case isTrue h =>
          have hsuf : st.2 <:+ a :: rest := by
            apply mrun_suffix (rest.length + 2) re prev (a :: rest)
            exact List.mem_of_mem_head? hm
          exact hsuf.subset (ih st.1 st.2 c hc)
        case isFalse h =>
          rcases List.mem_cons.mp hc with h1 | h1
          · simp [h1]
          · exact List.mem_cons_of_mem a (ih (some a) rest c h1)
      case h_2 =>
        rcases List.mem_cons.mp hc with h1 | h1
        · simp [h1]
        · exact List.mem_cons_of_mem a (ih (some a) rest c h1)

theorem subAll_subset (re : RE) (cs : List Char) :
    ∀ c ∈ subAll re cs, c ∈ cs :=
  subGo_subset re cs.length none cs

/-!
Combinators translating the concrete regex syntax of the pattern tables.
-/

/-- Literal character. -/
def rchar (c : Char) : RE := .cls (fun d => d = c)

/-- Literal character under re.IGNORECASE (ASCII case fold). -/
def rcharCI (c : Char) : RE := .cls (fun d => d.toLower = c.toLower)

/-- Literal string. -/
def rstr (s : String) : RE := s.data.foldr (fun c r => .seq (rchar c) r) .eps

/-- Literal string under re.IGNORECASE. -/
def rstrCI (s : String) : RE := s.data.foldr (fun c r => .seq (rcharCI c) r) .eps

/-- Sequencing of a list of expressions. -/
def rseq (l : List RE) : RE := l.foldr .seq .eps

/-- Greedy option, the question-mark quantifier. -/
def ropt (a : RE) : RE := .alt a .eps

/-- Greedy plus quantifier. -/
def rplus (a : RE) : RE := .seq a (.star true a)

/-- Class backslash-s. -/
def rws : RE := .cls isSpaceChar

/-- Class backslash-d. -/
def rdigit : RE := .cls Char.isDigit

/-- Class backslash-w. -/
def rword : RE := .cls isWordChar

/-- Class backslash-S. -/
def rnotws : RE := .cls (fun c => !isSpaceChar c)

/-- Dot without re.DOTALL: any character except newline. -/
def rdot : RE := .cls (fun c => c ≠ '\n')

/-- Dot under re.DOTALL: any character. -/
def rany : RE := .cls (fun _ => true)

/-- Class of one letter: the classes of upper or lower case letters match
any letter under re.IGNORECASE, which is set on all block patterns. -/
def ralpha : RE := .cls Char.isAlpha

/-- Translation of REMOVE_BLOCKS of pdf.py, in declaration order.  These
patterns are compiled with re.MULTILINE, re.DOTALL and re.IGNORECASE. -/
def REMOVE_BLOCKS : List RE :=
  [ -- HAL archive header block
    rseq [rstrCI "HAL Id:", .star false rany,
      .look (.alt (rstrCI "From sedimentary") (.alt (rstrCI "Abstract")
        (.alt (rstrCI "Introduction")
          (rseq [rchar '\n', rchar '\n', ralpha, ralpha]))))],
    -- JSTOR header block
    rseq [rstrCI "Source:", .star false rany, rstrCI "Stable URL:",
      .star false rany,
      .look (.alt (rstrCI "ABSTRACT") (.alt (rstrCI "Abstract")
        (rstrCI "Introduction")))],
    rseq [rstrCI "JSTOR is a not-for-profit service", .star false rany,
      .look (.alt (rstrCI "ABSTRACT") (.alt (rstrCI "Abstract")
        (rseq [ralpha, ralpha])))],
    rseq [rstrCI "Your use of the JSTOR archive", .star false rany,
      .look (rseq [rchar '\n', rchar '\n'])],
    rseq [rstrCI "This content downloaded from", .star false rany,
      .look (.alt (rseq [rchar '\n', rchar '\n'])
        (rseq [rchar '\n', ralpha]))] ]

/-- Translation of REMOVE_PATTERNS of pdf.py, in declaration order.  These
patterns are compiled with re.MULTILINE only. -/
def REMOVE_PATTERNS : List RE :=
  [ rseq [rstr "This content was downloaded from IP address", .star false rdot,
      .look (.alt (rchar '\n') .eol)],
    rseq [rstr "This content downloaded from", .star true rdot, .eol],
    rseq [rstr "All use subject to https://about.jstor.org/terms",
      .star true rws, .eol],
    rseq [.bol, rstr "OPEN ACCESS", .star true rws, .eol],
    rseq [.bol, rstr "RECEIVED", .star true rws, .eol],
    rseq [.bol, rstr "REVISED", .star true rws, .eol],
    rseq [.bol, rstr "ACCEPTED FOR PUBLICATION", .star true rws, .eol],
    rseq [.bol, rstr "PUBLISHED", .star true rws, .eol],
    -- Dates like 25 September 2022
    rseq [.bol, rdigit, ropt rdigit, rplus rws, rplus rword, rplus rws,
      rdigit, rdigit, rdigit, rdigit, .star true rws, .eol],
    rseq [.bol, rstr "Original content from", .star true rws, .eol],
    rseq [.bol, rstr "this work may be used", .star true rws, .eol],
    rseq [.bol, rstr "under the terms of the", .star true rws, .eol],
    rseq [.bol, rstr "Creative Commons", .star true rws, .eol],
    rseq [.bol, rstr "Attribution ", rdigit, rchar '.', rdigit,
      rstr " licence", ropt (rchar '.'), .star true rws, .eol],
    rseq [.bol, rstr "Any further distribution", .star true rws, .eol],
    rseq [.bol, rstr "of this work must", .star true rws, .eol],
    rseq [.bol, rstr "maintain attribution to", .star true rws, .eol],
    rseq [.bol, rstr "the author(s) and the title", .star true rws, .eol],
    rseq [.bol, rstr "of the work", ropt (rchar ','), rstr " journal",
      .star true rws, .eol],
    rseq [.bol, rstr "citation and DOI.", .star true rws, .eol],
    rseq [.bol, rstr "http", ropt (rchar 's'), rstr "://doi.org/",
      .star true rdot, .eol],
    -- Standalone URLs
    rseq [.bol, rstr "http", ropt (rchar 's'), rstr "://", rplus rnotws,
      .star true rws, .eol],
    -- Website URLs like www.cerf-jcr.org
    rseq [.bol, rstr "www.", rplus (.cls (fun c => c.isLower || c = '-')),
      rchar '.', .alt (rstr "org") (.alt (rstr "com") (rstr "edu")),
      .star true rws, .eol],
    -- Journal header
    rseq [.bol, rstr "Environ. Res. Lett.", .star true rdot, .eol],
    -- Copyright footer
    rseq [rchar '©', .star true rws, rdigit, rdigit, rdigit, rdigit,
      rplus rws, rstr "The Author(s).", .star true rdot, .eol],
    -- Author page headers like Y Ma et al
    rseq [.bol, .cls Char.isUpper, rplus rws, .cls Char.isUpper,
      rplus (.cls Char.isLower), rplus rws, rstr "et", rplus rws, rstr "al",
      .star true rws, .eol],
    rseq [.bol, rstr "IOP Publishing", .star true rws, .eol],
    -- Spaced article info
    rseq ([.bol] ++ (List.intersperse (rplus rws)
      (['a','r','t','i','c','l','e','i','n','f','o'].map rchar))
      ++ [.star true rws, .eol]),
    -- Spaced summary
    rseq ([.bol] ++ (List.intersperse (rplus rws)
      (['s','u','m','m','a','r','y'].map rchar))
      ++ [.star true rws, .eol]),
    rseq [.bol, rstr "Article history:", .star true rws, .eol],
    rseq [.bol, rstr "Received", .star true rdot, rstr "revised",
      .star true rdot, rstr "Accepted", .star true rdot, .eol],
    rseq [.bol, rstr "Available online", .star true rdot, .eol],
    rseq [.bol, rstr "This manuscript was handled by", .star true rdot, .eol],
    rseq [.bol, rstr "Keywords:", .star true rws, .eol] ]

/-- Translation of the standalone page-number pattern of clean_text. -/
def numericRE : RE := rseq [.bol, rplus rdigit, .star true rws, .eol]

/-- Application of the block patterns in declaration order. -/
def stripBlocks (cs : List Char) : List Char :=
  REMOVE_BLOCKS.foldl (fun t re => subAll re t) cs

/-- Application of the line patterns in declaration order. -/
def stripLines (cs : List Char) : List Char :=
  REMOVE_PATTERNS.foldl (fun t re => subAll re t) cs

/-- The three boilerplate-stripping passes of clean_text in order: block
patterns, line patterns, standalone numeric lines. -/
def stripAll (cs : List Char) : List Char :=
  subAll numericRE (stripLines (stripBlocks cs))

/-!
Translation of the line classifier: the functions of pdf.py named with a
leading underscore are translated without it.  The regexes inside
ends_sentence and is_heading are compiled without re.MULTILINE, so their
dollar anchor matches at the end of the subject or just before one final
newline; they are translated as direct functions.
-/

/-- Position of the dollar anchor without re.MULTILINE: a pattern anchored
at dollar sees the subject without one final newline. -/
def dollarStrip (cs : List Char) : List Char :=
  match cs.getLast? with
  | some '\n' => cs.dropLast
  | _ => cs

/-- Search for terminal punctuation followed only by whitespace, the first
test of ends_sentence. -/
def endsTerminal (cs : List Char) : Bool :=
  match cs.reverse.dropWhile isSpaceChar with
  | c :: _ => c = '.' || c = '!' || c = '?'
  | [] => false

/-- Search for a citation-style ending: four digits, an optional
lower-case letter, a closing parenthesis, optional whitespace, an optional
period, optional whitespace, end.  The character classes of the pattern
are pairwise disjoint, so the right-to-left parse is the unique match. -/
def endsCitation (cs : List Char) : Bool :=
  let r1 := cs.reverse.dropWhile isSpaceChar
  let r2 := match r1 with | '.' :: t => t | _ => r1
  let r3 := r2.dropWhile isSpaceChar
  match r3 with
  | ')' :: t =>
    let t2 := match t with
      | c :: u => if c.isLower then u else t
      | [] => t
    (match t2 with
     | a :: b :: c :: d :: _ => a.isDigit && b.isDigit && c.isDigit && d.isDigit
     | _ => false)
  | _ => false

/-- Search for one literal character right before the dollar anchor. -/
def endsDollarChar (cs : List Char) (c : Char) : Bool :=
  (dollarStrip cs).getLast? = some c

/-- Search for a trailing word before the dollar anchor with a word
boundary in front, case-insensitively. -/
def endsWordDollar (cs : List Char) (w : List Char) : Bool :=
  let t := (dollarStrip cs).map Char.toLower
  w.isSuffixOf t &&
    (match t.reverse.drop w.length with
     | c :: _ => !isWordChar c
     | [] => true)

/-- Search for an opening parenthesis left unclosed to the end of the
line: dot cannot cross a newline, so the parenthesis must occur after the
last newline seen by the dollar anchor. -/
def hasOpenParenLastLine (cs : List Char) : Bool :=
  ((dollarStrip cs).reverse.takeWhile (fun c => c ≠ '\n')).contains '('

/-- Trailing words of the continuation_endings table of ends_sentence. -/
def continuationWords : List (List Char) :=
  (["and", "or", "the", "a", "an", "of", "in", "to", "for", "with", "by",
    "from", "that", "which", "as", "at", "on", "is", "are", "was", "were",
    "et", "al"]).map String.data

/-- Test of the continuation_endings table of ends_sentence, in
declaration order: comma, semicolon, the trailing words, an unclosed
opening parenthesis. -/
def endsContinuation (cs : List Char) : Bool :=
  endsDollarChar cs ',' || endsDollarChar cs ';' ||
  continuationWords.any (fun w => endsWordDollar cs w) ||
  hasOpenParenLastLine cs

/-- Search for any of the six punctuation marks right before the dollar
anchor, used by the short-line branch of ends_sentence. -/
def endsPunctAny (cs : List Char) : Bool :=
  match (dollarStrip cs).getLast? with
  | some c => c = '.' || c = '!' || c = '?' || c = ':' || c = ';' || c = ','
  | none => false

/-- Translation of ends_sentence of pdf.py. -/
def ends_sentence (cs : List Char) : Bool :=
  if cs = [] then true
  else if endsTerminal cs then true
  else if endsCitation cs then true
  else if cs.getLast? = some ':' then true
  else if endsContinuation cs then false
  else if cs.length < 60 && !endsPunctAny cs then false
  else false

/-- Heading vocabulary of is_heading. -/
def headingWords : List (List Char) :=
  (["abstract", "introduction", "methods", "results", "discussion",
    "conclusion", "references", "acknowledgment", "keywords", "summary",
    "background"]).map String.data

/-- Match of the numbered-section pattern of is_heading from the start of
the line: digits, an optional dot, optional digits, an optional dot, at
least one whitespace, an upper-case letter.  The character classes are
pairwise disjoint, so the greedy parse is the unique match. -/
def numberedHeading (cs : List Char) : Bool :=
  match cs with
  | c :: _ =>
    c.isDigit &&
    (let r1 := cs.dropWhile Char.isDigit
     let r2 := match r1 with | '.' :: t => t | _ => r1
     let r3 := r2.dropWhile Char.isDigit
     let r4 := match r3 with | '.' :: t => t | _ => r3
     match r4 with
     | d :: _ =>
       isSpaceChar d &&
       (match r4.dropWhile isSpaceChar with
        | e :: _ => e.isUpper
        | [] => false)
     | [] => false)
  | [] => false

/-- Model of Python str.isupper: at least one cased character and no
lower-case character (ASCII). -/
def pyIsUpper (cs : List Char) : Bool :=
  cs.any Char.isAlpha && cs.all (fun c => !c.isLower)

/-- First-word vocabulary rule of is_heading. -/
def firstWordHeading (cs : List Char) : Bool :=
  match pySplit cs with
  | [] => false
  | w :: _ =>
    let fw := ((w.map Char.toLower).reverse.dropWhile
      (fun c => c = '.' || c = ':')).reverse
    headingWords.contains fw && cs.length < 40

/-- Short-capitalised-line rule of is_heading. -/
def shortCapsHeading (cs : List Char) : Bool :=
  cs.length < 30 &&
  (match cs with | c :: _ => c.isUpper | [] => false) &&
  !(cs.getLast? = some ',') &&
  (pySplit cs).length ≤ 4

/-- Translation of is_heading of pdf.py. -/
def is_heading (cs : List Char) : Bool :=
  if cs = [] then false
  else if numberedHeading cs then true
  else if pyIsUpper cs && cs.length < 60 then true
  else if firstWordHeading cs then true
  else if shortCapsHeading cs then true
  else false

/-!
Translation of rejoin_broken_lines of pdf.py.  The inner while loop of the
source becomes the function extend: it receives the current accumulated
line (already stripped) and the raw lines after it, and returns the
finished logical line together with the raw lines where the outer loop
resumes.  The outer while loop becomes rejoinLines.
-/

/-- Inner loop of rejoin_broken_lines: extend the current line with
continuation lines.  Ordering mirrors the source: blank-line bridging
first, then the two heading stops, then the hyphen join, then the
sentence-end test. -/
def extend (line : List Char) : List (List Char) → (List Char × List (List Char))
  | [] => (line, [])
  | next :: rest1 =>
    let nl := pyStrip next
    if nl = [] then
      match rest1 with
      | [] => (line, next :: rest1)
      | after :: rest2 =>
        let ae := pyStrip after
        if (ae ≠ [] && (match ae with | c :: _ => c.isLower | [] => false)
            && !ends_sentence line && !is_heading ae) then
          -- the blank line is consumed and the loop body continues with
          -- the line after it in place of the immediate next line
          if is_heading line then (line, rest1)
          else if is_heading ae then (line, rest1)
          else if (line.getLast? = some '-' &&
              !(line.reverse.take 2 = ['-', ' '])) then
            extend (line.dropLast ++ ae) rest2
          else if !ends_sentence line then
            extend (line ++ [' '] ++ ae) rest2
          else (line, rest1)
        else (line, next :: rest1)
    else
      if is_heading line then (line, next :: rest1)
      else if is_heading nl then (line, next :: rest1)
      else if (line.getLast? = some '-' &&
          !(line.reverse.take 2 = ['-', ' '])) then
        extend (line.dropLast ++ nl) rest1
      else if !ends_sentence line then
        extend (line ++ [' '] ++ nl) rest1
      else (line, next :: rest1)

/-- Resumption point of extend: the returned line list is a suffix of the
input line list. -/
theorem extend_snd_suffix (line : List Char) (rest : List (List Char)) :
    (extend line rest).2 <:+ rest := by
  match rest with
  | [] => simp [extend]
  | next :: rest1 =>
    rw [extend.eq_def]
    dsimp only
    split
    · match rest1 with
      | [] => exact List.suffix_rfl
      | after :: rest2 =>
        dsimp only
        split
        · split
          · exact List.suffix_cons next (after :: rest2)
          · split
            · exact List.suffix_cons next (after :: rest2)
            · split
              · exact ((extend_snd_suffix _ rest2).trans
                  (List.suffix_cons after rest2)).trans
                  (List.suffix_cons next (after :: rest2))
              · split
                · exact ((extend_snd_suffix _ rest2).trans
                    (List.suffix_cons after rest2)).trans
                    (List.suffix_cons next (after :: rest2))
                · exact List.suffix_cons next (after :: rest2)
        · exact List.suffix_rfl
    · split
      · exact List.suffix_rfl
      · split
        · exact List.suffix_rfl
        · split
          · exact (extend_snd_suffix _ rest1).trans (List.suffix_cons next rest1)
          · split
            · exact (extend_snd_suffix _ rest1).trans (List.suffix_cons next rest1)
            · exact List.suffix_rfl
termination_by rest.length
decreasing_by all_goals (simp only [List.length_cons]; omega)

theorem extend_snd_length_le (line : List Char) (rest : List (List Char)) :
    (extend line rest).2.length ≤ rest.length :=
  (extend_snd_suffix line rest).length_le

/-- Outer loop of rejoin_broken_lines over the list of physical lines,
bounded by fuel: each step consumes at least one line, so fuel of the
number of lines is exact. -/
def rejoinGo : Nat → List (List Char) → List (List Char)
  | 0, _ => []
  | _ + 1, [] => []
  | fuel + 1, l :: rest =>
    (extend (pyStrip l) rest).1 :: rejoinGo fuel (extend (pyStrip l) rest).2

/-- Outer loop of rejoin_broken_lines over the list of physical lines. -/
def rejoinLines (ls : List (List Char)) : List (List Char) :=
  rejoinGo ls.length ls

/-- Fuel invariance of the outer loop at or above the number of lines. -/
theorem rejoinGo_fuel (f1 : Nat) : ∀ (f2 : Nat) (ls : List (List Char)),
    ls.length ≤ f1 → ls.length ≤ f2 → rejoinGo f1 ls = rejoinGo f2 ls := by
  induction f1 with
  | zero =>
    intro f2 ls h1 h2
    have : ls = [] := List.length_eq_zero.mp (Nat.le_zero.mp h1)
    subst this
    match f2 with
    | 0 => rfl
    | g + 1 => rfl
  | succ f1 ih =>
    intro f2 ls h1 h2
    match ls with
    | [] =>
      match f2 with
      | 0 => rfl
      | g + 1 => rfl
    | l :: rest =>
      match f2 with
      | 0 => exact absurd h2 (by simp)
      | g + 1 =>
        simp only [rejoinGo]
        have hlen := extend_snd_length_le (pyStrip l) rest
        simp only [List.length_cons] at h1 h2
        rw [ih g (extend (pyStrip l) rest).2 (by omega) (by omega)]

/-- Unfolding equation of rejoinLines on a non-empty line list. -/
theorem rejoinLines_cons (l : List Char) (rest : List (List Char)) :
    rejoinLines (l :: rest) =
      (extend (pyStrip l) rest).1 :: rejoinLines (extend (pyStrip l) rest).2 := by
  show rejoinGo (rest.length + 1) (l :: rest) = _
  simp only [rejoinGo]
  rw [rejoinGo_fuel rest.length (extend (pyStrip l) rest).2.length
    (extend (pyStrip l) rest).2 (extend_snd_length_le (pyStrip l) rest) (Nat.le_refl _)]
  rfl

/-- Translation of rejoin_broken_lines of pdf.py. -/
def rejoin_broken_lines (cs : List Char) : List Char :=
  joinNL (rejoinLines (splitNL cs))

/-- Translation of clean_text of pdf.py over unpacked characters: fix
ligatures, remove block patterns, remove line patterns, remove standalone
numeric lines, collapse horizontal whitespace, collapse excess newlines,
rejoin broken lines, collapse excess newlines again, strip every line,
strip the whole text. -/
def cleanTextChars (cs : List Char) : List Char :=
  let t1 := fixLigatures cs
  let t2 := stripBlocks t1
  let t3 := stripLines t2
  let t4 := subAll numericRE t3
  let t5 := collapseSpaces t4
  let t6 := collapseNL t5
  let t7 := rejoin_broken_lines t6
  let t8 := collapseNL t7
  let t9 := joinNL ((splitNL t8).map pyStrip)
  pyStrip t9

/-- Translation of clean_text of pdf.py. -/
def clean_text (s : String) : String :=
  String.mk (cleanTextChars s.data)

/-- Marker phrases of SKIP_PAGE_PATTERNS of pdf.py.  The patterns contain
no regex metacharacters, so re.search with re.IGNORECASE is
case-insensitive substring containment. -/
def SKIP_PAGE_PATTERNS : List String :=
  ["You may also like",
   "To cite this article:",
   "View the article online for updates",
   "This content was downloaded from IP address"]

/-- Case-insensitive substring containment (ASCII case fold), the model
of re.search with re.IGNORECASE on a literal pattern. -/
def containsCI (haystack pat : List Char) : Bool :=
  decide ((pat.map Char.toLower) <:+: (haystack.map Char.toLower))

/-- Translation of is_skip_page of pdf.py. -/
def is_skip_page (text : String) : Bool :=
  SKIP_PAGE_PATTERNS.any (fun pat => containsCI text.data pat.data)

/-- Page loop of extract_text of pdf.py: a page is kept when it is not a
skip page and strips to a non-empty string. -/
def keptPages (pages : List String) : List String :=
  pages.filter (fun p => !is_skip_page p && pyStrip p.data ≠ [])

/-- Concatenation and cleaning of extract_text of pdf.py: kept pages are
joined by one newline and passed to clean_text. -/
def extractClean (pages : List String) : String :=
  clean_text (String.mk (joinNL ((keptPages pages).map String.data)))

/-!
Lemmas about headings and the rejoiner, used by the heading-preservation
claim.
-/

theorem is_heading_nil : is_heading [] = false := by decide

/-- A line classified as a heading is never extended: the inner loop
returns it unchanged. -/
theorem extend_fst_of_heading (line : List Char) (rest : List (List Char))
    (hl : is_heading line = true) : (extend line rest).1 = line := by
  match rest with
  | [] => rw [extend]
  | next :: rest1 =>
    rw [extend.eq_def]
    dsimp only
    by_cases hb : pyStrip next = []
    · rw [if_pos hb]
      match rest1 with
      | [] => rfl
      | after :: rest2 =>
        dsimp only
        by_cases hg : (decide (pyStrip after ≠ []) &&
            (match pyStrip after with | c :: tail => c.isLower | [] => false) &&
            !ends_sentence line && !is_heading (pyStrip after)) = true
        · rw [if_pos hg, if_pos (by simp [hl])]
        · rw [if_neg hg]
    · rw [if_neg hb, if_pos (by simp [hl])]

/-- The inner loop never consumes a heading line: the suffix starting at
a heading line is still present in the resumption point. -/
theorem extend_not_past_heading (line : List Char) (pre : List (List Char))
    (h : List Char) (post : List (List Char))
    (hh : is_heading (pyStrip h) = true) :
    (h :: post) <:+ (extend line (pre ++ h :: post)).2 := by
  have hhne : pyStrip h ≠ [] := by
    intro he
    rw [he, is_heading_nil] at hh
    exact Bool.false_ne_true hh
  match pre with
  | [] =>
    rw [List.nil_append, extend.eq_def]
    dsimp only
    rw [if_neg hhne]
    by_cases hlh : is_heading line = true
    · rw [if_pos (by simp [hlh])]
    · rw [if_neg (by simp [hlh]), if_pos (by simp [hh])]
  | p :: pre1 =>
    rw [List.cons_append, extend.eq_def]
    dsimp only
    by_cases hb : pyStrip p = []
    · rw [if_pos hb]
      match pre1 with
      | [] =>
        rw [List.nil_append]
        dsimp only
        rw [if_neg (by simp [hh])]
        exact ⟨[p], rfl⟩
      | q :: pre2 =>
        rw [List.cons_append]
        dsimp only
        by_cases hg : (decide (pyStrip q ≠ []) &&
            (match pyStrip q with | c :: tail => c.isLower | [] => false) &&
            !ends_sentence line && !is_heading (pyStrip q)) = true
        · rw [if_pos hg]
          by_cases h1 : is_heading line = true
          · rw [if_pos (by simp [h1])]
            exact ⟨q :: pre2, rfl⟩
          · rw [if_neg (by simp [h1])]
            by_cases h2 : is_heading (pyStrip q) = true
            · rw [if_pos (by simp [h2])]
              exact ⟨q :: pre2, rfl⟩
            · rw [if_neg (by simp [h2])]
              by_cases h3 : (decide (line.getLast? = some '-') &&
                  !decide (List.take 2 line.reverse = ['-', ' '])) = true
              · rw [if_pos h3]
                exact extend_not_past_heading _ pre2 h post hh
              · rw [if_neg h3]
                by_cases h4 : ends_sentence line = false
                · rw [if_pos (by simp [h4])]
                  exact extend_not_past_heading _ pre2 h post hh
                · rw [if_neg (by simp [h4])]
                  exact ⟨q :: pre2, rfl⟩
        · rw [if_neg hg]
          exact ⟨p :: q :: pre2, rfl⟩
    · rw [if_neg hb]
      by_cases h1 : is_heading line = true
      · rw [if_pos (by simp [h1])]
        exact ⟨p :: pre1, rfl⟩
      · rw [if_neg (by simp [h1])]
        by_cases h2 : is_heading (pyStrip p) = true
        · rw [if_pos (by simp [h2])]
          exact ⟨p :: pre1, rfl⟩
        · rw [if_neg (by simp [h2])]
          by_cases h3 : (decide (line.getLast? = some '-') &&
              !decide (List.take 2 line.reverse = ['-', ' '])) = true
          · rw [if_pos h3]
            exact extend_not_past_heading _ pre1 h post hh
          · rw [if_neg h3]
            by_cases h4 : ends_sentence line = false
            · rw [if_pos (by simp [h4])]
              exact extend_not_past_heading _ pre1 h post hh
            · rw [if_neg (by simp [h4])]
              exact ⟨p :: pre1, rfl⟩
termination_by pre.length
decreasing_by all_goals (simp only [List.length_cons]; omega)

/-!
Generic preservation of a line property through the rejoiner: a property
closed under the two join operations of extend holds of every emitted
logical line.
-/

theorem extend_fst_pred (P : List Char → Prop)
    (hsp : ∀ a w, P a → P (pyStrip w) → ends_sentence a = false →
      pyStrip w ≠ [] → P (a ++ [' '] ++ pyStrip w))
    (hhy : ∀ a w, P a → P (pyStrip w) → a.getLast? = some '-' →
      pyStrip w ≠ [] → P (a.dropLast ++ pyStrip w))
    (line : List Char) (rest : List (List Char))
    (hl : P line) (hr : ∀ w ∈ rest, P (pyStrip w)) :
    P (extend line rest).1 := by
  match rest with
  | [] =>
    rw [extend]
    exact hl
  | next :: rest1 =>
    rw [extend.eq_def]
    dsimp only
    by_cases hb : pyStrip next = []
    · rw [if_pos hb]
      match rest1 with
      | [] => exact hl
      | after :: rest2 =>
        dsimp only
        by_cases hg : (decide (pyStrip after ≠ []) &&
            (match pyStrip after with | c :: tail => c.isLower | [] => false) &&
            !ends_sentence line && !is_heading (pyStrip after)) = true
        · have hg1 := hg
          simp only [Bool.and_eq_true, decide_eq_true_eq,
            Bool.not_eq_true'] at hg1
          obtain ⟨⟨⟨hne, hlow⟩, hes⟩, hah⟩ := hg1
          rw [if_pos hg]
          by_cases h1 : is_heading line = true
          · rw [if_pos (by simp [h1])]
            exact hl
          · rw [if_neg (by simp [h1])]
            rw [if_neg (by simp [hah])]
            by_cases h3 : (decide (line.getLast? = some '-') &&
                !decide (List.take 2 line.reverse = ['-', ' '])) = true
            · rw [if_pos h3]
              have h3a : line.getLast? = some '-' := by
                simp only [Bool.and_eq_true, decide_eq_true_eq] at h3
                exact h3.1
              exact extend_fst_pred P hsp hhy _ rest2
                (hhy line after hl
                  (hr after (by simp)) h3a hne)
                (fun w hw => hr w (by simp [hw]))
            · rw [if_neg h3, if_pos (by simp [hes])]
              exact extend_fst_pred P hsp hhy _ rest2
                (hsp line after hl (hr after (by simp)) hes hne)
                (fun w hw => hr w (by simp [hw]))
        · rw [if_neg hg]
          exact hl
    · rw [if_neg hb]
      by_cases h1 : is_heading line = true
      · rw [if_pos (by simp [h1])]
        exact hl
      · rw [if_neg (by simp [h1])]
        by_cases h2 : is_heading (pyStrip next) = true
        · rw [if_pos (by simp [h2])]
          exact hl
        · rw [if_neg (by simp [h2])]
          by_cases h3 : (decide (line.getLast? = some '-') &&
              !decide (List.take 2 line.reverse = ['-', ' '])) = true
          · rw [if_pos h3]
            have h3a : line.getLast? = some '-' := by
              simp only [Bool.and_eq_true, decide_eq_true_eq] at h3
              exact h3.1
            exact extend_fst_pred P hsp hhy _ rest1
              (hhy line next hl (hr next (by simp)) h3a hb)
              (fun w hw => hr w (by simp [hw]))
          · rw [if_neg h3]
            by_cases h4 : ends_sentence line = false
            · rw [if_pos (by simp [h4])]
              exact extend_fst_pred P hsp hhy _ rest1
                (hsp line next hl (hr next (by simp)) h4 hb)
                (fun w hw => hr w (by simp [hw]))
            · rw [if_neg (by simp [h4])]
              exact hl
termination_by rest.length
decreasing_by all_goals (simp only [List.length_cons]; omega)

/-- Every line emitted by the outer rejoin loop satisfies a property that
the stripped input lines satisfy and that the joins preserve. -/
theorem rejoinLines_pred (P : List Char → Prop)
    (hsp : ∀ a w, P a → P (pyStrip w) → ends_sentence a = false →
      pyStrip w ≠ [] → P (a ++ [' '] ++ pyStrip w))
    (hhy : ∀ a w, P a → P (pyStrip w) → a.getLast? = some '-' →
      pyStrip w ≠ [] → P (a.dropLast ++ pyStrip w))
    (ls : List (List Char)) (hall : ∀ w ∈ ls, P (pyStrip w)) :
    ∀ m ∈ rejoinLines ls, P m := by
  match ls with
  | [] =>
    intro m hm
    simp [rejoinLines, rejoinGo] at hm
  | l :: rest =>
    intro m hm
    rw [rejoinLines_cons] at hm
    rcases List.mem_cons.mp hm with hm | hm
    · subst hm
      exact extend_fst_pred P hsp hhy _ rest (hall l (by simp))
        (fun w hw => hall w (by simp [hw]))
    · have hsuf := extend_snd_suffix (pyStrip l) rest
      have hsub : ∀ w ∈ (extend (pyStrip l) rest).2, P (pyStrip w) :=
        fun w hw => hall w (by simp [hsuf.subset hw])
      have hlen : (extend (pyStrip l) rest).2.length < (l :: rest).length := by
        have := hsuf.length_le
        simp only [List.length_cons]
        omega
      exact rejoinLines_pred P hsp hhy _ hsub m hm
termination_by ls.length
decreasing_by simp only [List.length_cons] at hlen ⊢; omega

/-!
Character-subset lemmas: every later stage of clean_text only deletes
characters or inserts a space, a newline, or letters from the ligature
expansions.
-/

theorem expandLigature_mem (a c : Char) (h : c ∈ expandLigature a) :
    c = a ∨ c = 'f' ∨ c = 'i' ∨ c = 'l' := by
  rw [expandLigature] at h
  split_ifs at h <;> simp_all <;> tauto

theorem fixLigatures_mem (cs : List Char) (c : Char) (h : c ∈ fixLigatures cs) :
    c ∈ cs ∨ c = 'f' ∨ c = 'i' ∨ c = 'l' := by
  rw [fixLigatures] at h
  simp only [List.mem_flatMap] at h
  obtain ⟨a, ha, hc⟩ := h
  rcases expandLigature_mem a c hc with h | h | h | h
  · exact Or.inl (h ▸ ha)
  all_goals simp [h]

theorem foldl_subAll_mem (res : List RE) (t : List Char) (c : Char)
    (h : c ∈ res.foldl (fun t re => subAll re t) t) : c ∈ t := by
  induction res generalizing t with
  | nil => exact h
  | cons re res ih =>
    simp only [List.foldl_cons] at h
    exact subAll_subset re t c (ih (subAll re t) h)

theorem collapseSpaces_mem (cs : List Char) (c : Char)
    (h : c ∈ collapseSpaces cs) : c ∈ cs ∨ c = ' ' := by
  induction cs with
  | nil => simp [collapseSpaces] at h
  | cons a rest ih =>
    rw [collapseSpaces] at h
    split_ifs at h with h1 h2
    · rcases ih h with h | h
      · exact Or.inl (List.mem_cons_of_mem a h)
      · exact Or.inr h
    · rcases List.mem_cons.mp h with h | h
      · exact Or.inr h
      · rcases ih h with h | h
        · exact Or.inl (List.mem_cons_of_mem a h)
        · exact Or.inr h
    · rcases List.mem_cons.mp h with h | h
      · exact Or.inl (by simp [h])
      · rcases ih h with h | h
        · exact Or.inl (List.mem_cons_of_mem a h)
        · exact Or.inr h

theorem collapseNL_mem (cs : List Char) (c : Char)
    (h : c ∈ collapseNL cs) : c ∈ cs := by
  induction cs with
  | nil => simp [collapseNL] at h
  | cons a rest ih =>
    rw [collapseNL] at h
    split_ifs at h with h1
    · exact List.mem_cons_of_mem a (ih h)
    · rcases List.mem_cons.mp h with h | h
      · simp [h]
      · exact List.mem_cons_of_mem a (ih h)

theorem pyStrip_subset (l : List Char) (c : Char) (h : c ∈ pyStrip l) :
    c ∈ l := by
  rw [pyStrip] at h
  rw [List.mem_reverse] at h
  have h1 := (List.dropWhile_suffix isSpaceChar).subset h
  rw [List.mem_reverse] at h1
  exact (List.dropWhile_suffix isSpaceChar).subset h1

theorem splitNL_mem_subset (cs : List Char) (l : List Char)
    (hl : l ∈ splitNL cs) : ∀ c ∈ l, c ∈ cs := by
  induction cs generalizing l with
  | nil =>
    simp only [splitNL, List.mem_singleton] at hl
    subst hl
    simp
  | cons a rest ih =>
    intro c hc
    rw [splitNL] at hl
    split_ifs at hl with h1
    · rcases List.mem_cons.mp hl with hl | hl
      · subst hl
        simp at hc
      · exact List.mem_cons_of_mem a (ih l hl c hc)
    · cases hsp : splitNL rest with
      | nil =>
        rw [hsp] at hl
        dsimp only at hl
        rcases List.mem_cons.mp hl with hl | hl
        · subst hl
          rcases List.mem_cons.mp hc with hc | hc
          · simp [hc]
          · simp at hc
        · simp at hl
      | cons l0 ls0 =>
        rw [hsp] at hl
        dsimp only at hl
        rcases List.mem_cons.mp hl with hl | hl
        · subst hl
          rcases List.mem_cons.mp hc with hc | hc
          · simp [hc]
          · exact List.mem_cons_of_mem a (ih l0 (by rw [hsp]; simp) c hc)
        · exact List.mem_cons_of_mem a
            (ih l (by rw [hsp]; exact List.mem_cons_of_mem l0 hl) c hc)

theorem joinNL_cons_cons (l m : List Char) (ls : List (List Char)) :
    joinNL (l :: m :: ls) = l ++ '\n' :: joinNL (m :: ls) := rfl

theorem joinNL_mem : ∀ (L : List (List Char)) (c : Char), c ∈ joinNL L →
    (∃ l ∈ L, c ∈ l) ∨ c = '\n'
  | [], c, h => by simp [joinNL] at h
  | [l], c, h => Or.inl ⟨l, by simp, h⟩
  | l :: m :: ls1, c, h => by
    rw [joinNL_cons_cons] at h
    rcases List.mem_append.mp h with h | h
    · exact Or.inl ⟨l, by simp, h⟩
    · rcases List.mem_cons.mp h with h | h
      · exact Or.inr h
      · rcases joinNL_mem (m :: ls1) c h with ⟨l1, hl1, hc⟩ | h
        · exact Or.inl ⟨l1, by simp [hl1], hc⟩
        · exact Or.inr h

theorem rejoin_broken_lines_mem (cs : List Char) (c : Char)
    (h : c ∈ rejoin_broken_lines cs) : c ∈ cs ∨ c = ' ' ∨ c = '\n' := by
  rw [rejoin_broken_lines] at h
  rcases joinNL_mem _ c h with ⟨m, hm, hc⟩ | h
  · have := rejoinLines_pred (fun l => ∀ d ∈ l, d ∈ cs ∨ d = ' ' ∨ d = '\n')
      (by
        intro a w ha hw hes hne d hd
        simp only [List.append_assoc, List.mem_append, List.mem_cons] at hd
        rcases hd with hd | hd | hd
        · exact ha d hd
        · exact Or.inr (Or.inl (by simpa using hd))
        · exact hw d hd)
      (by
        intro a w ha hw hla hne d hd
        rcases List.mem_append.mp hd with hd | hd
        · exact ha d (List.dropLast_subset a hd)
        · exact hw d hd)
      (splitNL cs)
      (by
        intro w hw d hd
        exact Or.inl (splitNL_mem_subset cs w hw d (pyStrip_subset w d hd)))
    exact this m hm c hc
  · exact Or.inr (Or.inr h)

/-- Character subset for the whole of clean_text: the output consists of
input characters, ligature-expansion letters, spaces and newlines. -/
theorem cleanTextChars_mem (cs : List Char) (c : Char)
    (h : c ∈ cleanTextChars cs) :
    c ∈ cs ∨ c = 'f' ∨ c = 'i' ∨ c = 'l' ∨ c = ' ' ∨ c = '\n' := by
  rw [cleanTextChars] at h
  have h1 := pyStrip_subset _ c h
  rcases joinNL_mem _ c h1 with ⟨m, hm, hc⟩ | hnl
  swap
  · simp [hnl]
  simp only [List.mem_map] at hm
  obtain ⟨l8, hl8, hpm⟩ := hm
  subst hpm
  have h2 := splitNL_mem_subset _ l8 hl8 c (pyStrip_subset l8 c hc)
  have h3 := collapseNL_mem _ c h2
  rcases rejoin_broken_lines_mem _ c h3 with h4 | h4
  swap
  · rcases h4 with h4 | h4 <;> simp [h4]
  have h5 := collapseNL_mem _ c h4
  rcases collapseSpaces_mem _ c h5 with h6 | h6
  swap
  · simp [h6]
  have h7 := subAll_subset numericRE _ c h6
  have h8 := foldl_subAll_mem REMOVE_PATTERNS _ c h7
  have h9 := foldl_subAll_mem REMOVE_BLOCKS _ c h8
  rcases fixLigatures_mem cs c h9 with h10 | h10 | h10 | h10
  · exact Or.inl h10
  all_goals simp [h10]

/-!
Trimmed lines: characterization of strings fixed by pyStrip, and facts
about the whitespace stages needed for the output-shape claims.
-/

/-- A line (or text) with no leading and no trailing whitespace. -/
def trimmedLine (l : List Char) : Prop :=
  (∀ c, l.head? = some c → isSpaceChar c = false) ∧
  (∀ c, l.getLast? = some c → isSpaceChar c = false)

theorem trimmedLine_nil : trimmedLine [] := by
  constructor <;> intro c h <;> simp at h

theorem dropWhile_head_not (p : Char → Bool) (l : List Char) :
    ∀ c, (l.dropWhile p).head? = some c → p c = false := by
  induction l with
  | nil => intro c h; simp [List.dropWhile] at h
  | cons a rest ih =>
    intro c h
    rw [List.dropWhile_cons] at h
    split at h
    · exact ih c h
    · simp only [List.head?_cons, Option.some_inj] at h
      subst h
      simp_all

theorem dropWhile_eq_self_of_head (p : Char → Bool) (l : List Char)
    (h : ∀ c, l.head? = some c → p c = false) : l.dropWhile p = l := by
  match l with
  | [] => rfl
  | a :: rest =>
    rw [List.dropWhile_cons, if_neg]
    simp [h a rfl]

theorem suffix_getLast? (B C : List Char) (h : B <:+ C) (hB : B ≠ []) :
    B.getLast? = C.getLast? := by
  obtain ⟨t, ht⟩ := h
  rw [← ht, List.getLast?_append_of_ne_nil t hB]

/-- The result of pyStrip is trimmed. -/
theorem pyStrip_trimmed (l : List Char) : trimmedLine (pyStrip l) := by
  rw [pyStrip]
  constructor
  · intro c h
    rw [List.head?_reverse] at h
    by_cases hB : (l.dropWhile isSpaceChar).reverse.dropWhile isSpaceChar = []
    · rw [hB] at h
      simp at h
    · rw [suffix_getLast? _ _ (List.dropWhile_suffix _) hB,
        List.getLast?_reverse] at h
      exact dropWhile_head_not isSpaceChar l c h
  · intro c h
    rw [List.getLast?_reverse] at h
    exact dropWhile_head_not isSpaceChar _ c h

/-- A trimmed line is a fixed point of pyStrip. -/
theorem pyStrip_eq_self (l : List Char) (h : trimmedLine l) : pyStrip l = l := by
  rw [pyStrip, dropWhile_eq_self_of_head isSpaceChar l h.1,
    dropWhile_eq_self_of_head isSpaceChar l.reverse
      (by intro c hc; rw [List.head?_reverse] at hc; exact h.2 c hc),
    List.reverse_reverse]

/-- The result of pyStrip is an infix of its argument. -/
theorem pyStrip_infixOf (l : List Char) : pyStrip l <:+: l := by
  rw [pyStrip]
  have h1 : l.dropWhile isSpaceChar <:+ l := List.dropWhile_suffix _
  have h2 : (l.dropWhile isSpaceChar).reverse.dropWhile isSpaceChar <:+
      (l.dropWhile isSpaceChar).reverse := List.dropWhile_suffix _
  have h3 : ((l.dropWhile isSpaceChar).reverse.dropWhile isSpaceChar).reverse <+:
      l.dropWhile isSpaceChar := by
    have h4 := List.reverse_prefix.mpr h2
    simpa using h4
  exact h3.isInfix.trans h1.isInfix

/-- Absence of two adjacent spaces. -/
def noDoubleSpace (l : List Char) : Prop := ¬ ([' ', ' '] <:+: l)

/-- Absence of three adjacent newlines: at most one blank line between
any two pieces of content. -/
def noTripleNL (l : List Char) : Prop := ¬ (['\n', '\n', '\n'] <:+: l)

theorem single_prefix_iff (v : Char) (z : List Char) :
    [v] <+: z ↔ z.head? = some v := by
  cases z with
  | nil => simp
  | cons a t => simp [List.cons_prefix_cons, eq_comm]

/-- Decomposition of a two-character infix of an append: it lies in the
left part, in the right part, or across the boundary. -/
theorem infix2_append (u v : Char) (x y : List Char)
    (h : [u, v] <:+: x ++ y) :
    [u, v] <:+: x ∨ [u, v] <:+: y ∨
      (x.getLast? = some u ∧ y.head? = some v) := by
  induction x with
  | nil => exact Or.inr (Or.inl (by simpa using h))
  | cons a x1 ih =>
    rw [List.cons_append, List.infix_cons_iff] at h
    rcases h with h | h
    · rw [List.cons_prefix_cons] at h
      obtain ⟨hua, hv⟩ := h
      rcases hx1 : x1 with _ | ⟨b, x2⟩
      · subst hx1
        rw [List.nil_append, single_prefix_iff] at hv
        exact Or.inr (Or.inr ⟨by simp [hua], hv⟩)
      · subst hx1
        rw [List.cons_append, single_prefix_iff, List.head?_cons,
          Option.some_inj] at hv
        refine Or.inl (List.IsPrefix.isInfix ?_)
        rw [hua, hv]
        exact ⟨x2, rfl⟩
    · rcases ih h with h1 | h1 | h1
      · exact Or.inl (h1.trans ((List.suffix_cons a x1).isInfix))
      · exact Or.inr (Or.inl h1)
      · have hx1ne : x1 ≠ [] := by
          intro he
          rw [he] at h1
          simp at h1
        refine Or.inr (Or.inr ⟨?_, h1.2⟩)
        rw [← suffix_getLast? x1 (a :: x1) (List.suffix_cons a x1) hx1ne]
        exact h1.1

/-!
Facts about splitNL and joinNL.
-/

theorem splitNL_ne_nil (cs : List Char) : splitNL cs ≠ [] := by
  match cs with
  | [] => simp [splitNL]
  | c :: rest =>
    rw [splitNL]
    split_ifs
    · simp
    · split <;> simp

theorem splitNL_head (cs : List Char) :
    (splitNL cs).head? = some (cs.takeWhile (fun c => c ≠ '\n')) := by
  induction cs with
  | nil => simp [splitNL, List.takeWhile]
  | cons a rest ih =>
    rw [splitNL]
    split_ifs with h1
    · subst h1
      simp [List.takeWhile_cons]
    · rw [List.takeWhile_cons, if_pos (by simp [h1])]
      cases hsp : splitNL rest with
      | nil => exact absurd hsp (splitNL_ne_nil rest)
      | cons l0 ls0 =>
        rw [hsp] at ih
        simp only [List.head?_cons, Option.some_inj] at ih
        simp [ih]

theorem splitNL_no_newline (cs : List Char) :
    ∀ l ∈ splitNL cs, '\n' ∉ l := by
  induction cs with
  | nil =>
    intro l hl
    simp only [splitNL, List.mem_singleton] at hl
    simp [hl]
  | cons a rest ih =>
    intro l hl
    rw [splitNL] at hl
    split_ifs at hl with h1
    · rcases List.mem_cons.mp hl with hl | hl
      · simp [hl]
      · exact ih l hl
    · cases hsp : splitNL rest with
      | nil => exact absurd hsp (splitNL_ne_nil rest)
      | cons l0 ls0 =>
        rw [hsp] at hl
        dsimp only at hl
        rcases List.mem_cons.mp hl with hl | hl
        · subst hl
          intro hc
          rcases List.mem_cons.mp hc with hc | hc
          · exact h1 hc.symm
          · exact ih l0 (by rw [hsp]; simp) hc
        · exact ih l (by rw [hsp]; exact List.mem_cons_of_mem l0 hl)

theorem splitNL_mem_infixOf (cs : List Char) :
    ∀ l ∈ splitNL cs, l <:+: cs := by
  induction cs with
  | nil =>
    intro l hl
    simp only [splitNL, List.mem_singleton] at hl
    simp [hl]
  | cons a rest ih =>
    intro l hl
    rw [splitNL] at hl
    split_ifs at hl with h1
    · rcases List.mem_cons.mp hl with hl | hl
      · simp [hl]
      · exact (ih l hl).trans (List.suffix_cons a rest).isInfix
    · cases hsp : splitNL rest with
      | nil => exact absurd hsp (splitNL_ne_nil rest)
      | cons l0 ls0 =>
        rw [hsp] at hl
        dsimp only at hl
        rcases List.mem_cons.mp hl with hl | hl
        · subst hl
          have h0 : l0 <:+: rest := ih l0 (by rw [hsp]; simp)
          have hpre : (splitNL rest).head? = some l0 := by rw [hsp]; rfl
          rw [splitNL_head rest] at hpre
          have hl0 : l0 = rest.takeWhile (fun c => c ≠ '\n') := by
            simpa using hpre.symm
          refine List.IsPrefix.isInfix ?_
          rw [hl0]
          exact ⟨rest.dropWhile (fun c => c ≠ '\n'), by
            rw [List.cons_append, List.takeWhile_append_dropWhile]⟩
        · exact (ih l (by rw [hsp]; exact List.mem_cons_of_mem l0 hl)).trans
            (List.suffix_cons a rest).isInfix

theorem joinNL_cons_cons_general {L : List (List Char)} (hne : L ≠ [])
    (l : List Char) : joinNL (l :: L) = l ++ '\n' :: joinNL L := by
  match L with
  | m :: ls => exact joinNL_cons_cons l m ls

theorem joinNL_splitNL (cs : List Char) : joinNL (splitNL cs) = cs := by
  induction cs with
  | nil => rfl
  | cons a rest ih =>
    rw [splitNL]
    split_ifs with h1
    · subst h1
      rw [joinNL_cons_cons_general (splitNL_ne_nil rest), ih, List.nil_append]
    · cases hsp : splitNL rest with
      | nil => exact absurd hsp (splitNL_ne_nil rest)
      | cons l0 ls0 =>
        dsimp only
        rw [hsp] at ih
        cases ls0 with
        | nil =>
          rw [joinNL]
          rw [joinNL] at ih
          rw [ih]
        | cons l1 ls1 =>
          rw [joinNL_cons_cons] at ih ⊢
          rw [List.cons_append, ih]

theorem splitNL_joinNL (L : List (List Char)) (hne : L ≠ [])
    (hnl : ∀ l ∈ L, '\n' ∉ l) : splitNL (joinNL L) = L := by
  match L with
  | [l] =>
    rw [joinNL]
    have : ∀ (m : List Char), '\n' ∉ m → splitNL m = [m] := by
      intro m
      induction m with
      | nil => intro hm; rfl
      | cons c t iht =>
        intro hm
        rw [splitNL, if_neg (by intro hc; exact hm (by simp [hc]))]
        rw [iht (by intro hc; exact hm (by simp [hc]))]
    exact this l (hnl l (by simp))
  | l :: m :: ls =>
    rw [joinNL_cons_cons]
    have hl : '\n' ∉ l := hnl l (by simp)
    have hrest : splitNL (joinNL (m :: ls)) = m :: ls :=
      splitNL_joinNL (m :: ls) (by simp)
        (fun x hx => hnl x (List.mem_cons_of_mem l hx))
    clear hnl hne
    induction l with
    | nil =>
      rw [List.nil_append, splitNL, if_pos rfl, hrest]
    | cons c t ihl =>
      rw [List.cons_append, splitNL,
        if_neg (by intro hc; exact hl (by simp [hc]))]
      rw [ihl (by intro hc; exact hl (by simp [hc]))]

/-!
Facts about collapseSpaces: its output has no tab and no two adjacent
spaces.
-/

theorem collapseSpaces_head (cs : List Char) :
    (collapseSpaces cs).head? =
      cs.head?.map (fun c => if c = ' ' || c = '\t' then ' ' else c) := by
  induction cs with
  | nil => rfl
  | cons a rest ih =>
    rw [collapseSpaces]
    split_ifs with h1 h2
    · rw [ih]
      simp only [Bool.and_eq_true] at h1
      cases rest with
      | nil => simp at h1
      | cons d r =>
        have hd2 : d = ' ' ∨ d = '\t' := by
          have hdb : (decide (d = ' ') || decide (d = '\t')) = true := h1.2
          simpa using hdb
        have ha2 : a = ' ' ∨ a = '\t' := by
          have hab := h1.1
          simpa using hab
        rcases hd2 with hd2 | hd2 <;> rcases ha2 with ha2 | ha2 <;>
          subst hd2 <;> subst ha2 <;> rfl
    · have ha2 : a = ' ' ∨ a = '\t' := by simpa using h2
      rcases ha2 with ha2 | ha2 <;> subst ha2 <;> rfl
    · show _ = some (if (decide (a = ' ') || decide (a = '\t')) = true
        then ' ' else a)
      rw [if_neg h2]
      rfl

theorem collapseSpaces_no_tab (cs : List Char) : '\t' ∉ collapseSpaces cs := by
  induction cs with
  | nil => simp [collapseSpaces]
  | cons a rest ih =>
    rw [collapseSpaces]
    split_ifs with h1 h2
    · exact ih
    · intro hc
      rcases List.mem_cons.mp hc with hc | hc
      · exact absurd hc.symm (by decide)
      · exact ih hc
    · intro hc
      rcases List.mem_cons.mp hc with hc | hc
      · subst hc
        simp at h2
      · exact ih hc

theorem collapseSpaces_noDD (cs : List Char) :
    noDoubleSpace (collapseSpaces cs) := by
  induction cs with
  | nil => simp [collapseSpaces, noDoubleSpace]
  | cons a rest ih =>
    rw [collapseSpaces]
    split_ifs with h1 h2
    · exact ih
    · intro hc
      rw [List.infix_cons_iff] at hc
      rcases hc with hc | hc
      · rw [List.cons_prefix_cons] at hc
        obtain ⟨hu, hv⟩ := hc
        rw [single_prefix_iff, collapseSpaces_head] at hv
        simp only [Bool.and_eq_true] at h1
        cases rest with
        | nil => simp at hv
        | cons d r =>
          have hdneg : ¬(decide (d = ' ') || decide (d = '\t')) = true := by
            intro hdt
            exact h1 ⟨h2, hdt⟩
          have hv2 : (if (decide (d = ' ') || decide (d = '\t')) = true
              then ' ' else d) = ' ' := by
            have : Option.map (fun c =>
                if (decide (c = ' ') || decide (c = '\t')) = true
                then ' ' else c) ((d :: r).head?) =
                some (if (decide (d = ' ') || decide (d = '\t')) = true
                then ' ' else d) := rfl
            rw [this] at hv
            exact Option.some_inj.mp hv
          rw [if_neg hdneg] at hv2
          exact hdneg (by simp [hv2])
      · exact ih hc
    · intro hc
      rw [List.infix_cons_iff] at hc
      rcases hc with hc | hc
      · rw [List.cons_prefix_cons] at hc
        obtain ⟨hu, hv⟩ := hc
        exact h2 (by rw [← hu]; decide)
      · exact ih hc

/-!
Facts about collapseNL: it preserves the head, the first line and the
absence of double spaces, its output has no triple newline, and each of
its output lines is an input line or empty.
-/

theorem collapseNL_head (cs : List Char) :
    (collapseNL cs).head? = cs.head? := by
  induction cs with
  | nil => rfl
  | cons a rest ih =>
    rw [collapseNL]
    split_ifs with h1
    · simp only [Bool.and_eq_true] at h1
      rw [ih]
      cases rest with
      | nil => simp at h1
      | cons d r =>
        have : d = '\n' := by
          have := h1.2
          simp only [List.take, decide_eq_true_eq] at this
          exact (List.cons_eq_cons.mp this).1
        simp [this, (by simpa using h1.1 : a = '\n')]
    · rfl

theorem take_one_eq_iff (w : List Char) (x : Char) :
    w.take 1 = [x] ↔ w.head? = some x := by
  cases w <;> simp

theorem collapseNL_take2 (cs : List Char)
    (h : (collapseNL cs).take 2 = ['\n', '\n']) :
    cs.take 2 = ['\n', '\n'] := by
  induction cs with
  | nil => simp [collapseNL] at h
  | cons a rest ih =>
    rw [collapseNL] at h
    split_ifs at h with h1
    · simp only [Bool.and_eq_true, decide_eq_true_eq] at h1
      obtain ⟨ha, hr⟩ := h1
      subst ha
      cases rest with
      | nil => simp at hr
      | cons d r =>
        have hd : d = '\n' := by
          simp only [List.take] at hr
          exact (List.cons_eq_cons.mp hr).1
        simp [hd]
    · simp only [List.take_succ_cons] at h
      have ha := (List.cons_eq_cons.mp h).1
      have hw := (List.cons_eq_cons.mp h).2
      rw [take_one_eq_iff, collapseNL_head] at hw
      subst ha
      cases rest with
      | nil => simp at hw
      | cons d r =>
        have : d = '\n' := by simpa using hw
        simp [this]

theorem collapseNL_noTriple (cs : List Char) : noTripleNL (collapseNL cs) := by
  induction cs with
  | nil => simp [collapseNL, noTripleNL]
  | cons a rest ih =>
    rw [collapseNL]
    split_ifs with h1
    · exact ih
    · intro hc
      rw [List.infix_cons_iff] at hc
      rcases hc with hc | hc
      · rw [List.cons_prefix_cons] at hc
        obtain ⟨ha, hv⟩ := hc
        rw [List.prefix_iff_eq_take] at hv
        have h2 := collapseNL_take2 rest (by
          simpa using hv.symm)
        exact h1 (by simp [ha.symm, h2])
      · exact ih hc

theorem collapseNL_firstLine (cs : List Char) :
    (collapseNL cs).takeWhile (fun c => c ≠ '\n') =
      cs.takeWhile (fun c => c ≠ '\n') := by
  induction cs with
  | nil => rfl
  | cons a rest ih =>
    rw [collapseNL]
    split_ifs with h1
    · simp only [Bool.and_eq_true, decide_eq_true_eq] at h1
      obtain ⟨ha, hr⟩ := h1
      subst ha
      rw [ih]
      cases rest with
      | nil => simp at hr
      | cons d r =>
        have hd : d = '\n' := by
          simp only [List.take] at hr
          exact (List.cons_eq_cons.mp hr).1
        subst hd
        simp [List.takeWhile_cons]
    · by_cases ha : a = '\n'
      · subst ha
        simp [List.takeWhile_cons]
      · rw [List.takeWhile_cons, List.takeWhile_cons, if_pos (by simp [ha]),
          if_pos (by simp [ha]), ih]

theorem collapseNL_tail_lines (cs : List Char) :
    ∀ l ∈ (splitNL (collapseNL cs)).tail,
      l ∈ (splitNL cs).tail ∨ l = [] := by
  induction cs with
  | nil =>
    intro l hl
    simp [collapseNL, splitNL] at hl
  | cons a rest ih =>
    intro l hl
    rw [collapseNL] at hl
    split_ifs at hl with h1
    · rcases ih l hl with h | h
      · left
        simp only [Bool.and_eq_true, decide_eq_true_eq] at h1
        rw [splitNL, if_pos (by simp [h1.1])]
        exact List.mem_of_mem_tail h
      · exact Or.inr h
    · by_cases ha : a = '\n'
      · subst ha
        rw [splitNL, if_pos rfl] at hl
        rw [splitNL, if_pos rfl]
        simp only [List.tail_cons] at hl ⊢
        cases hsp : splitNL (collapseNL rest) with
        | nil => exact absurd hsp (splitNL_ne_nil _)
        | cons l0 ls0 =>
          rw [hsp] at hl
          rcases List.mem_cons.mp hl with hl | hl
          · subst hl
            left
            have h0 : (splitNL (collapseNL rest)).head? = some l := by
              rw [hsp]; rfl
            rw [splitNL_head, collapseNL_firstLine] at h0
            have h0b : (splitNL rest).head? =
                some (rest.takeWhile (fun c => c ≠ '\n')) := splitNL_head rest
            have hleq : l = rest.takeWhile (fun c => c ≠ '\n') := by
              simpa using h0.symm
            rw [hleq]
            exact List.mem_of_mem_head? h0b
          · rcases ih l (by rw [hsp]; exact hl) with h | h
            · exact Or.inl (List.mem_of_mem_tail h)
            · exact Or.inr h
      · rw [splitNL, if_neg ha] at hl
        rw [splitNL, if_neg ha]
        cases hsp : splitNL (collapseNL rest) with
        | nil => exact absurd hsp (splitNL_ne_nil _)
        | cons l0 ls0 =>
          rw [hsp] at hl
          dsimp only at hl
          simp only [List.tail_cons] at hl
          cases hsp2 : splitNL rest with
          | nil => exact absurd hsp2 (splitNL_ne_nil _)
          | cons m0 ms0 =>
            dsimp only
            simp only [List.tail_cons]
            rcases ih l (by rw [hsp]; simpa using hl) with h | h
            · rw [hsp2] at h
              simp only [List.tail_cons] at h
              exact Or.inl h
            · exact Or.inr h

theorem collapseNL_lines (cs : List Char) :
    ∀ l ∈ splitNL (collapseNL cs), l ∈ splitNL cs ∨ l = [] := by
  intro l hl
  cases hsp : splitNL (collapseNL cs) with
  | nil => exact absurd hsp (splitNL_ne_nil _)
  | cons l0 ls0 =>
    rw [hsp] at hl
    rcases List.mem_cons.mp hl with hl | hl
    · subst hl
      left
      have h0 : (splitNL (collapseNL cs)).head? = some l := by rw [hsp]; rfl
      rw [splitNL_head, collapseNL_firstLine] at h0
      have h0b := splitNL_head cs
      have hleq : l = cs.takeWhile (fun c => c ≠ '\n') := by simpa using h0.symm
      rw [hleq]
      exact List.mem_of_mem_head? h0b
    · rcases collapseNL_tail_lines cs l (by rw [hsp]; exact hl) with h | h
      · exact Or.inl (List.mem_of_mem_tail h)
      · exact Or.inr h

theorem collapseNL_noDD (cs : List Char) (h : noDoubleSpace cs) :
    noDoubleSpace (collapseNL cs) := by
  induction cs with
  | nil => simpa [collapseNL] using h
  | cons a rest ih =>
    have hrest : noDoubleSpace rest := by
      intro hc
      exact h (hc.trans (List.suffix_cons a rest).isInfix)
    rw [collapseNL]
    split_ifs with h1
    · exact ih hrest
    · intro hc
      rw [List.infix_cons_iff] at hc
      rcases hc with hc | hc
      · rw [List.cons_prefix_cons] at hc
        obtain ⟨ha, hv⟩ := hc
        rw [single_prefix_iff, collapseNL_head] at hv
        apply h
        refine List.IsPrefix.isInfix ?_
        cases rest with
        | nil => simp at hv
        | cons d r =>
          have hd : d = ' ' := by simpa using hv
          rw [← ha, hd]
          exact ⟨r, rfl⟩
      · exact ih hrest hc

/-!
Assembly lemmas for the output-shape claims.
-/

theorem ends_sentence_nil : ends_sentence [] = true := rfl

theorem getLast?_some_ne_nil {a : List Char} {c : Char}
    (h : a.getLast? = some c) : a ≠ [] := by
  intro he
  rw [he] at h
  simp at h

theorem dropLast_head? (a : List Char) (h : a.dropLast ≠ []) :
    a.dropLast.head? = a.head? := by
  match a with
  | [] => simp at h
  | [c] => simp at h
  | c :: d :: t => simp

theorem trimmedLine_reverse (l : List Char) (h : trimmedLine l) :
    trimmedLine l.reverse := by
  constructor
  · intro c hc
    rw [List.head?_reverse] at hc
    exact h.2 c hc
  · intro c hc
    rw [List.getLast?_reverse] at hc
    exact h.1 c hc

theorem rejoinLines_ne_nil (ls : List (List Char)) (h : ls ≠ []) :
    rejoinLines ls ≠ [] := by
  match ls with
  | l :: rest =>
    rw [rejoinLines_cons]
    simp

theorem joinNL_noDD (L : List (List Char))
    (h : ∀ l ∈ L, noDoubleSpace l) : noDoubleSpace (joinNL L) := by
  match L with
  | [] => simp [joinNL, noDoubleSpace]
  | [l] => exact h l (by simp)
  | l :: m :: ls =>
    rw [joinNL_cons_cons]
    intro hc
    rcases infix2_append _ _ _ _ hc with hc | hc | hc
    · exact h l (by simp) hc
    · rw [List.infix_cons_iff] at hc
      rcases hc with hc | hc
      · rw [List.cons_prefix_cons] at hc
        exact absurd hc.1 (by decide)
      · exact joinNL_noDD (m :: ls) (fun x hx => h x (List.mem_cons_of_mem l hx)) hc
    · simp at hc

/-- Dropping leading whitespace of a joined line list with trimmed line
heads drops exactly the leading empty lines. -/
theorem dropWS_joinNL (L : List (List Char))
    (h : ∀ l ∈ L, ∀ c, l.head? = some c → isSpaceChar c = false) :
    (joinNL L).dropWhile isSpaceChar =
      joinNL (L.dropWhile (fun l => decide (l = []))) := by
  match L with
  | [] => rfl
  | [l] =>
    rw [joinNL]
    cases hl : l with
    | nil => simp [joinNL]
    | cons c t =>
      have hc : isSpaceChar c = false := h l (by simp) c (by rw [hl]; rfl)
      rw [List.dropWhile_cons, if_neg (by simp [hc])]
      rw [List.dropWhile_cons, if_neg (by simp)]
      rfl
  | l :: m :: ls =>
    rw [joinNL_cons_cons]
    cases hl : l with
    | nil =>
      rw [List.nil_append, List.dropWhile_cons, if_pos (by rfl)]
      rw [List.dropWhile_cons, if_pos (by simp)]
      exact dropWS_joinNL (m :: ls) (fun x hx => h x (List.mem_cons_of_mem l hx))
    | cons c t =>
      have hc : isSpaceChar c = false := h l (by simp) c (by rw [hl]; rfl)
      rw [List.cons_append, List.dropWhile_cons, if_neg (by simp [hc])]
      rw [List.dropWhile_cons, if_neg (by simp)]
      rw [joinNL_cons_cons]
      rfl

theorem joinNL_append_single (M : List (List Char)) (hne : M ≠ [])
    (x : List Char) : joinNL (M ++ [x]) = joinNL M ++ '\n' :: x := by
  match M with
  | [m] =>
    rw [List.cons_append, List.nil_append, joinNL_cons_cons, joinNL, joinNL]
  | m :: m2 :: ms =>
    have hx : (m :: m2 :: ms) ++ [x] = m :: ((m2 :: ms) ++ [x]) := rfl
    rw [hx, joinNL_cons_cons_general (by simp) m]
    rw [joinNL_append_single (m2 :: ms) (by simp) x]
    rw [joinNL_cons_cons, List.append_assoc, List.cons_append]

theorem joinNL_reverse (L : List (List Char)) :
    (joinNL L).reverse = joinNL ((L.reverse).map List.reverse) := by
  match L with
  | [] => rfl
  | [l] => rw [joinNL]; rfl
  | l :: m :: ls =>
    rw [joinNL_cons_cons, List.reverse_append, List.reverse_cons]
    rw [joinNL_reverse (m :: ls)]
    rw [show (l :: m :: ls).reverse = (m :: ls).reverse ++ [l] from by simp]
    rw [List.map_append, show List.map List.reverse [l] = [l.reverse] from rfl]
    rw [joinNL_append_single (List.map List.reverse (m :: ls).reverse)
      (by simp) l.reverse]
    rw [List.append_assoc]
    rfl

/-- Invariant kept by the rejoin pass on each line: trimmed, free of
newlines and tabs, and free of double spaces. -/
def goodLine (m : List Char) : Prop :=
  trimmedLine m ∧ '\n' ∉ m ∧ '\t' ∉ m ∧ noDoubleSpace m

theorem goodLine_space (a w : List Char) (ha : goodLine a)
    (hw : goodLine (pyStrip w)) (hes : ends_sentence a = false)
    (hne : pyStrip w ≠ []) : goodLine (a ++ [' '] ++ pyStrip w) := by
  have hane : a ≠ [] := by
    intro h0
    rw [h0, ends_sentence_nil] at hes
    exact absurd hes (by decide)
  refine ⟨⟨?_, ?_⟩, ?_, ?_, ?_⟩
  · intro c hc
    rw [List.head?_append_of_ne_nil _ (by simp : a ++ [' '] ≠ []),
      List.head?_append_of_ne_nil _ hane] at hc
    exact ha.1.1 c hc
  · intro c hc
    rw [List.getLast?_append_of_ne_nil _ hne] at hc
    exact hw.1.2 c hc
  · intro hc
    rcases List.mem_append.mp hc with hc | hc
    · rcases List.mem_append.mp hc with hc | hc
      · exact ha.2.1 hc
      · exact absurd (List.mem_singleton.mp hc) (by decide)
    · exact hw.2.1 hc
  · intro hc
    rcases List.mem_append.mp hc with hc | hc
    · rcases List.mem_append.mp hc with hc | hc
      · exact ha.2.2.1 hc
      · exact absurd (List.mem_singleton.mp hc) (by decide)
    · exact hw.2.2.1 hc
  · intro hc
    rcases infix2_append ' ' ' ' _ _ hc with hc | hc | hc
    · rcases infix2_append ' ' ' ' _ _ hc with hc2 | hc2 | hc2
      · exact ha.2.2.2 hc2
      · exact absurd hc2 (by decide)
      · exact absurd (ha.1.2 ' ' hc2.1) (by decide)
    · exact hw.2.2.2 hc
    · exact absurd (hw.1.1 ' ' hc.2) (by decide)

theorem goodLine_hyphen (a w : List Char) (ha : goodLine a)
    (hw : goodLine (pyStrip w)) (hla : a.getLast? = some '-')
    (hne : pyStrip w ≠ []) : goodLine (a.dropLast ++ pyStrip w) := by
  refine ⟨⟨?_, ?_⟩, ?_, ?_, ?_⟩
  · intro c hc
    by_cases hdl : a.dropLast = []
    · rw [hdl, List.nil_append] at hc
      exact hw.1.1 c hc
    · rw [List.head?_append_of_ne_nil _ hdl, dropLast_head? a hdl] at hc
      exact ha.1.1 c hc
  · intro c hc
    rw [List.getLast?_append_of_ne_nil _ hne] at hc
    exact hw.1.2 c hc
  · intro hc
    rcases List.mem_append.mp hc with hc | hc
    · exact ha.2.1 ((List.dropLast_prefix a).subset hc)
    · exact hw.2.1 hc
  · intro hc
    rcases List.mem_append.mp hc with hc | hc
    · exact ha.2.2.1 ((List.dropLast_prefix a).subset hc)
    · exact hw.2.2.1 hc
  · intro hc
    rcases infix2_append ' ' ' ' _ _ hc with hc | hc | hc
    · exact ha.2.2.2 (hc.trans (List.dropLast_prefix a).isInfix)
    · exact hw.2.2.2 hc
    · exact absurd (hw.1.1 ' ' hc.2) (by decide)

/-- Every line produced by the rejoin pass on a tab-free text with no
double spaces is a good line. -/
theorem rejoin_good (cs : List Char) (htab : '\t' ∉ cs)
    (hdd : noDoubleSpace cs) :
    ∀ m ∈ rejoinLines (splitNL cs), goodLine m := by
  refine rejoinLines_pred goodLine goodLine_space goodLine_hyphen
    (splitNL cs) ?_
  intro w hw
  refine ⟨pyStrip_trimmed w, ?_, ?_, ?_⟩
  · intro hc
    exact splitNL_no_newline cs w hw (pyStrip_subset w _ hc)
  · intro hc
    exact htab (splitNL_mem_subset cs w hw _ (pyStrip_subset w _ hc))
  · intro hc
    exact hdd (hc.trans ((pyStrip_infixOf w).trans (splitNL_mem_infixOf cs w hw)))

/-- Stripping a text all of whose lines are trimmed yields a text all of
whose lines are trimmed: the strip only drops leading and trailing empty
lines, apart from trimming the boundary lines which are already trimmed. -/
theorem pyStrip_lines_trimmed (x : List Char)
    (h : ∀ l ∈ splitNL x, trimmedLine l) :
    ∀ l ∈ splitNL (pyStrip x), trimmedLine l := by
  have hx : joinNL (splitNL x) = x := joinNL_splitNL x
  have e1 : (joinNL (splitNL x)).dropWhile isSpaceChar =
      joinNL ((splitNL x).dropWhile (fun l => decide (l = []))) :=
    dropWS_joinNL (splitNL x) (fun l hl c hc => (h l hl).1 c hc)
  have hL1 : ∀ l ∈ (splitNL x).dropWhile (fun l => decide (l = [])),
      l ∈ splitNL x := fun l hl => (List.dropWhile_suffix _).subset hl
  have r1 := joinNL_reverse ((splitNL x).dropWhile (fun l => decide (l = [])))
  have hL2 : ∀ l ∈ (((splitNL x).dropWhile
        (fun l => decide (l = []))).reverse.map List.reverse),
      ∃ l1 ∈ splitNL x, l = l1.reverse := by
    intro l hl
    rcases List.mem_map.mp hl with ⟨l1, hl1, hrev⟩
    exact ⟨l1, hL1 l1 (List.mem_reverse.mp hl1), hrev.symm⟩
  have e2 : (joinNL (((splitNL x).dropWhile
        (fun l => decide (l = []))).reverse.map List.reverse)).dropWhile
        isSpaceChar =
      joinNL ((((splitNL x).dropWhile
        (fun l => decide (l = []))).reverse.map List.reverse).dropWhile
        (fun l => decide (l = []))) := by
    refine dropWS_joinNL _ ?_
    intro l hl c hc
    rcases hL2 l hl with ⟨l1, hl1, hrev⟩
    rw [hrev] at hc
    exact (trimmedLine_reverse l1 (h l1 hl1)).1 c hc
  have r2 := joinNL_reverse ((((splitNL x).dropWhile
    (fun l => decide (l = []))).reverse.map List.reverse).dropWhile
    (fun l => decide (l = [])))
  have hM : ∀ l ∈ (((((splitNL x).dropWhile
        (fun l => decide (l = []))).reverse.map List.reverse).dropWhile
        (fun l => decide (l = []))).reverse.map List.reverse),
      l ∈ splitNL x := by
    intro l hl
    rcases List.mem_map.mp hl with ⟨l3, hl3, hrev⟩
    have hl3b := (List.dropWhile_suffix _).subset (List.mem_reverse.mp hl3)
    rcases hL2 l3 hl3b with ⟨l1, hl1, hrev1⟩
    rw [← hrev, hrev1, List.reverse_reverse]
    exact hl1
  have hps : pyStrip (joinNL (splitNL x)) = joinNL (((((splitNL x).dropWhile
      (fun l => decide (l = []))).reverse.map List.reverse).dropWhile
      (fun l => decide (l = []))).reverse.map List.reverse) := by
    rw [pyStrip, e1, r1, e2, r2]
  rw [hx] at hps
  intro l hl
  rw [hps] at hl
  by_cases hM0 : (((((splitNL x).dropWhile
      (fun l => decide (l = []))).reverse.map List.reverse).dropWhile
      (fun l => decide (l = []))).reverse.map List.reverse) = []
  · rw [hM0] at hl
    have : l = [] := by simpa [joinNL, splitNL] using hl
    rw [this]
    exact trimmedLine_nil
  · rw [splitNL_joinNL _ hM0
      (fun m hm => splitNL_no_newline x m (hM m hm))] at hl
    exact h l (hM l hl)

/-- Shape of the final stages of clean_text after the second whitespace
collapse input: the output has no triple newline, is trimmed, tab-free
and double-space-free, and each of its lines is trimmed and
newline-free. -/
theorem finalStages_shape (t6 : List Char) (htab6 : '\t' ∉ t6)
    (hdd6 : noDoubleSpace t6) :
    noTripleNL (pyStrip (joinNL ((splitNL (collapseNL
        (rejoin_broken_lines t6))).map pyStrip))) ∧
    trimmedLine (pyStrip (joinNL ((splitNL (collapseNL
        (rejoin_broken_lines t6))).map pyStrip))) ∧
    '\t' ∉ pyStrip (joinNL ((splitNL (collapseNL
        (rejoin_broken_lines t6))).map pyStrip)) ∧
    noDoubleSpace (pyStrip (joinNL ((splitNL (collapseNL
        (rejoin_broken_lines t6))).map pyStrip))) ∧
    (∀ l ∈ splitNL (pyStrip (joinNL ((splitNL (collapseNL
        (rejoin_broken_lines t6))).map pyStrip))),
      trimmedLine l ∧ '\n' ∉ l) := by
  have hgood : ∀ m ∈ rejoinLines (splitNL t6), goodLine m :=
    rejoin_good t6 htab6 hdd6
  have ht7 : rejoin_broken_lines t6 = joinNL (rejoinLines (splitNL t6)) := rfl
  have hlines7 : splitNL (rejoin_broken_lines t6) = rejoinLines (splitNL t6) := by
    rw [ht7]
    exact splitNL_joinNL _ (rejoinLines_ne_nil _ (splitNL_ne_nil t6))
      (fun l hl => (hgood l hl).2.1)
  have htab7 : '\t' ∉ rejoin_broken_lines t6 := by
    rw [ht7]
    intro hc
    rcases joinNL_mem _ _ hc with ⟨l, hl, hcl⟩ | hc2
    · exact (hgood l hl).2.2.1 hcl
    · exact absurd hc2 (by decide)
  have hdd7 : noDoubleSpace (rejoin_broken_lines t6) := by
    rw [ht7]
    exact joinNL_noDD _ (fun l hl => (hgood l hl).2.2.2)
  have hnt8 : noTripleNL (collapseNL (rejoin_broken_lines t6)) :=
    collapseNL_noTriple _
  have htab8 : '\t' ∉ collapseNL (rejoin_broken_lines t6) :=
    fun hc => htab7 (collapseNL_mem _ _ hc)
  have hdd8 : noDoubleSpace (collapseNL (rejoin_broken_lines t6)) :=
    collapseNL_noDD _ hdd7
  have hlines8 : ∀ l ∈ splitNL (collapseNL (rejoin_broken_lines t6)),
      trimmedLine l ∧ '\n' ∉ l := by
    intro l hl
    rcases collapseNL_lines _ l hl with h | h
    · rw [hlines7] at h
      exact ⟨(hgood l h).1, (hgood l h).2.1⟩
    · rw [h]
      exact ⟨trimmedLine_nil, by simp⟩
  have hmap : (splitNL (collapseNL (rejoin_broken_lines t6))).map pyStrip =
      splitNL (collapseNL (rejoin_broken_lines t6)) := by
    rw [List.map_congr_left
      (fun l hl => (pyStrip_eq_self l (hlines8 l hl).1).trans rfl)]
    exact List.map_id _
  have ht9 : joinNL ((splitNL (collapseNL (rejoin_broken_lines t6))).map
      pyStrip) = collapseNL (rejoin_broken_lines t6) := by
    rw [hmap, joinNL_splitNL]
  rw [ht9]
  refine ⟨?_, pyStrip_trimmed _, ?_, ?_, ?_⟩
  · intro hc
    exact hnt8 (hc.trans (pyStrip_infixOf _))
  · intro hc
    exact htab8 (pyStrip_subset _ _ hc)
  · intro hc
    exact hdd8 (hc.trans (pyStrip_infixOf _))
  · intro l hl
    refine ⟨pyStrip_lines_trimmed _ (fun m hm => (hlines8 m hm).1) l hl, ?_⟩
    exact splitNL_no_newline _ l hl

/-- Shape of the clean_text output: no triple newline, globally trimmed,
tab-free, double-space-free, and every line trimmed and newline-free. -/
theorem cleanTextChars_shape (cs : List Char) :
    noTripleNL (cleanTextChars cs) ∧
    trimmedLine (cleanTextChars cs) ∧
    '\t' ∉ cleanTextChars cs ∧
    noDoubleSpace (cleanTextChars cs) ∧
    (∀ l ∈ splitNL (cleanTextChars cs), trimmedLine l ∧ '\n' ∉ l) := by
  have h := finalStages_shape
    (collapseNL (collapseSpaces (subAll numericRE (stripLines (stripBlocks
      (fixLigatures cs))))))
    (fun hc => collapseSpaces_no_tab _ (collapseNL_mem _ _ hc))
    (collapseNL_noDD _ (collapseSpaces_noDD _))
  exact h

/-- The newline collapse distributes over an append whose left part does
not end in a newline. -/
theorem collapseNL_append (a y : List Char) (ha : a.getLast? ≠ some '\n') :
    collapseNL (a ++ y) = collapseNL a ++ collapseNL y := by
  match a with
  | [] => simp [collapseNL]
  | [c] =>
    have hc : c ≠ '\n' := by simpa using ha
    rw [List.cons_append, List.nil_append, collapseNL, collapseNL]
    rw [if_neg (by simp [hc]), if_neg (by simp [hc])]
    simp [collapseNL]
  | c :: d :: t2 =>
    have ha2 : (d :: t2).getLast? ≠ some '\n' := by
      rwa [List.getLast?_cons_cons] at ha
    have heq : (((d :: t2) ++ y).take 2 = ['\n', '\n']) ↔
        ((d :: t2).take 2 = ['\n', '\n']) := by
      cases t2 with
      | nil =>
        have hd : d ≠ '\n' := by simpa using ha2
        constructor
        · intro hh
          rw [List.cons_append, List.nil_append] at hh
          rw [show (2 : Nat) = 1 + 1 from rfl, List.take_succ_cons] at hh
          exact absurd (List.cons_eq_cons.mp hh).1 hd
        · intro hh
          simp at hh
      | cons e t3 => exact Iff.rfl
    rw [List.cons_append, collapseNL, collapseNL]
    by_cases hcond : c = '\n' ∧ (d :: t2).take 2 = ['\n', '\n']
    · rw [if_pos ?p1, if_pos ?p2]
      case p1 =>
        simp only [Bool.and_eq_true, decide_eq_true_eq]
        exact ⟨hcond.1, heq.mpr hcond.2⟩
      case p2 =>
        simp only [Bool.and_eq_true, decide_eq_true_eq]
        exact hcond
      exact collapseNL_append (d :: t2) y ha2
    · rw [if_neg ?neg1, if_neg ?neg2]
      case neg1 =>
        simp only [Bool.and_eq_true, decide_eq_true_eq]
        intro hp
        exact hcond ⟨hp.1, heq.mp hp.2⟩
      case neg2 =>
        simp only [Bool.and_eq_true, decide_eq_true_eq]
        intro hp
        exact hcond hp
      rw [collapseNL_append (d :: t2) y ha2, List.cons_append]

/-- A run of two or more newlines followed by a non-newline collapses to
exactly two newlines. -/
theorem collapseNL_replicate (k : Nat) (b : List Char) (hk : 2 ≤ k)
    (hb : b.head? ≠ some '\n') :
    collapseNL (List.replicate k '\n' ++ b) = '\n' :: '\n' :: collapseNL b := by
  match k, hk with
  | 2, _ =>
    rw [show List.replicate 2 '\n' = ['\n', '\n'] from rfl]
    rw [List.cons_append, List.cons_append, List.nil_append]
    cases b with
    | nil => rfl
    | cons c t =>
      have hc : c ≠ '\n' := by simpa using hb
      rw [collapseNL, if_neg ?neg1, collapseNL, if_neg ?neg2]
      case neg1 =>
        simp only [Bool.and_eq_true, decide_eq_true_eq]
        intro hp
        have h2 := hp.2
        rw [show (2 : Nat) = 1 + 1 from rfl, List.take_succ_cons] at h2
        have h3 := (List.cons_eq_cons.mp h2).2
        rw [show (1 : Nat) = 0 + 1 from rfl, List.take_succ_cons,
          List.take_zero] at h3
        exact hc (List.cons_eq_cons.mp h3).1
      case neg2 =>
        simp only [Bool.and_eq_true, decide_eq_true_eq]
        intro hp
        rw [show (2 : Nat) = 1 + 1 from rfl, List.take_succ_cons] at hp
        exact hc (List.cons_eq_cons.mp hp.2).1
  | (n + 3), _ =>
    have hrep : List.replicate (n + 3) '\n' ++ b =
        '\n' :: (List.replicate (n + 2) '\n' ++ b) := by
      rw [List.replicate_succ, List.cons_append]
    rw [hrep, collapseNL, if_pos ?pos]
    case pos =>
      simp only [Bool.and_eq_true, decide_eq_true_eq]
      refine ⟨trivial, ?_⟩
      rw [List.replicate_succ, List.replicate_succ, List.cons_append,
        List.cons_append]
      rfl
    exact collapseNL_replicate (n + 2) b (by omega) hb

/-!
Claim theorems.
-/

/-- C1: every physical line whose stripped form is classified as a
heading is emitted by the rejoiner as its own logical line: the output
contains exactly the stripped heading as one entry, nothing is merged
into it from either side, and processing resumes at a suffix of the
lines after it.  The property holds wherever the heading occurs, also
after earlier merges, because the classifier is re-evaluated on current
strings. -/
theorem heading_preservation (pre : List (List Char)) (h : List Char)
    (post : List (List Char)) (hh : is_heading (pyStrip h) = true) :
    ∃ (a r : List (List Char)), r <:+ post ∧
      rejoinLines (pre ++ h :: post) = a ++ pyStrip h :: rejoinLines r := by
  match pre with
  | [] =>
    rw [List.nil_append, rejoinLines_cons,
      extend_fst_of_heading (pyStrip h) post hh]
    exact ⟨[], (extend (pyStrip h) post).2, extend_snd_suffix (pyStrip h) post,
      rfl⟩
  | p :: pre1 =>
    rw [List.cons_append, rejoinLines_cons]
    have hs := extend_not_past_heading (pyStrip p) pre1 h post hh
    obtain ⟨pre2, hpre2⟩ := hs
    have hlen : pre2.length < (p :: pre1).length := by
      have h1 := (extend_snd_suffix (pyStrip p) (pre1 ++ h :: post)).length_le
      rw [← hpre2] at h1
      simp only [List.length_append, List.length_cons] at h1 ⊢
      omega
    obtain ⟨a, r, hr, heq⟩ := heading_preservation pre2 h post hh
    refine ⟨(extend (pyStrip p) (pre1 ++ h :: post)).1 :: a, r, hr, ?_⟩
    rw [hpre2] at heq
    rw [heq, List.cons_append]
termination_by pre.length
decreasing_by simp only [List.length_cons] at hlen ⊢; omega

/-- Witness for C1 at the example of the specification: the numbered
heading stays its own logical line before a prose line. -/
theorem heading_preservation_witness :
    is_heading (pyStrip (String.data ("2. Methods"))) = true ∧
    ∃ (a r : List (List Char)), r <:+ [String.data ("We used a kriging approach.")] ∧
      rejoinLines [String.data ("2. Methods"),
          String.data ("We used a kriging approach.")] =
        a ++ pyStrip (String.data ("2. Methods")) :: rejoinLines r :=
  ⟨by decide, heading_preservation [] _ _ (by decide)⟩

/-- C2: a non-empty line that does not end in terminal punctuation
(optionally followed by whitespace), does not end in a
four-digit-year-plus-optional-letter-plus-closing-parenthesis citation
(optionally followed by a period), and does not end with a colon, is
classified by ends_sentence as not ending a sentence; in particular the
continuation-token list and the short-line branch never change the
result, because every branch after the three positive tests returns
false. -/
theorem ends_sentence_default_false (cs : List Char) (h0 : cs ≠ [])
    (h1 : endsTerminal cs = false) (h2 : endsCitation cs = false)
    (h3 : cs.getLast? ≠ some ':') :
    ends_sentence cs = false := by
  rw [ends_sentence, if_neg h0, if_neg (by simp [h1]), if_neg (by simp [h2]),
    if_neg h3]
  split
  · rfl
  · split <;> rfl

/-- Witness for C2 at a concrete short unpunctuated line. -/
theorem ends_sentence_default_false_witness :
    ends_sentence (String.data ("two short words")) = false :=
  ends_sentence_default_false _ (by decide) (by decide) (by decide) (by decide)

/-- C5, counterexample: the boilerplate-stripping passes are not
idempotent.  On this once-stripped text the removal of the OPEN ACCESS
line created a blank line, which on a second application anchors the
lookahead of the fourth block pattern, so the JSTOR sentence is removed
only by the second pass. -/
theorem strip_idempotence_cex :
    stripAll (stripAll (String.data
      ("Your use of the JSTOR archive blah\nOPEN ACCESS\nmore text"))) ≠
    stripAll (String.data
      ("Your use of the JSTOR archive blah\nOPEN ACCESS\nmore text")) := by
  decide

/-- C5, amended: applying the boilerplate-stripping passes a second time
to already-stripped text is not always a no-op; there is a text whose
once-stripped form is changed again by a second application. -/
theorem strip_not_idempotent :
    ∃ cs : List Char, stripAll (stripAll cs) ≠ stripAll cs :=
  ⟨String.data ("Your use of the JSTOR archive blah\nOPEN ACCESS\nmore text"),
    by decide⟩

/-- C7: a page is classified for skipping exactly when it contains one of
the fixed marker phrases, case-insensitively, anywhere in its text; a
page classified for skipping is excluded entirely from the list of pages
that form the concatenated working buffer.  The predicate is a pure
function of the page text. -/
theorem page_filter_exact :
    (∀ p : String, is_skip_page p = true ↔
      ∃ pat ∈ SKIP_PAGE_PATTERNS, containsCI p.data pat.data = true) ∧
    (∀ (pages : List String) (p : String), p ∈ pages → is_skip_page p = true →
      p ∉ keptPages pages) := by
  constructor
  · intro p
    simp [is_skip_page, List.any_eq_true]
  · intro pages p hp hskip
    simp only [keptPages, List.mem_filter, hskip]
    simp

/-- Witness for C7: a page holding both real content and the
content-was-downloaded marker is dropped in full. -/
theorem page_filter_exact_witness :
    is_skip_page
      ("Real results about erosion. This content was downloaded from IP address 128.83.0.1") = true ∧
    ("Real results about erosion. This content was downloaded from IP address 128.83.0.1") ∉
      keptPages
        [("Real results about erosion. This content was downloaded from IP address 128.83.0.1")] :=
  ⟨by decide,
    page_filter_exact.2 _ _ (by simp) (by decide)⟩

/-- C9: clean_text is total and maps the empty string to the empty
string, and a document whose pages are all skip pages or whitespace-only
yields the empty cleaned text rather than an error. -/
theorem graceful_degradation :
    clean_text ("") = ("") ∧
    ∀ pages : List String,
      (∀ p ∈ pages, is_skip_page p = true ∨ pyStrip p.data = []) →
      extractClean pages = ("") := by
  constructor
  · decide
  · intro pages h
    have hk : keptPages pages = [] := by
      rw [keptPages, List.filter_eq_nil_iff]
      intro p hp
      rcases h p hp with h1 | h1
      · simp [h1]
      · simp [h1]
    rw [extractClean, hk]
    decide

/-- Witness for C9: one citation cover page and one whitespace page clean
to the empty string. -/
theorem graceful_degradation_witness :
    extractClean [("To cite this article: J Smith 2022"), ("   ")] = ("") :=
  graceful_degradation.2 _ (by decide)

theorem string_mk_data (l : List Char) : (String.mk l).data = l := rfl

theorem clean_text_unfold (s : String) :
    clean_text s = String.mk (cleanTextChars s.data) := rfl

/-- Unpacking of clean_text: its characters are those computed by
cleanTextChars. -/
theorem clean_text_data (s : String) :
    (clean_text s).data = cleanTextChars s.data :=
  (congrArg String.data (clean_text_unfold s)).trans
    (string_mk_data (cleanTextChars s.data))

/-- C8, amended: clean_text never introduces a carriage return: every
pipeline stage only deletes characters or inserts spaces, newlines and
ligature-expansion letters, so if the input is free of carriage returns
then so is the output.  The original claim fails because a carriage
return inside a line is preserved, not removed. -/
theorem no_carriage_return_introduced (s : String)
    (h : '\r' ∉ s.data) : '\r' ∉ (clean_text s).data := by
  intro hc
  rw [clean_text_data] at hc
  have hc2 := hc
  rcases cleanTextChars_mem s.data '\r' hc2 with h1 | h1 | h1 | h1 | h1 | h1
  · exact h h1
  all_goals exact absurd h1 (by decide)

/-- Witness for C8 on a carriage-return-free input. -/
theorem no_carriage_return_introduced_witness :
    '\r' ∉ (clean_text ("plain text")).data :=
  no_carriage_return_introduced _ (by decide)

/-- C8, counterexample: a carriage return inside a line survives the
pipeline, so the output of clean_text is not always free of carriage
returns. -/
theorem carriage_return_cex :
    '\r' ∈ (clean_text ("a\rb")).data := by
  decide

/-- C3, counterexample: the blank-bridging conditions of the claim hold
at this input (blank next line, non-empty line after it starting
lower-case and not a heading, current line not ending a sentence), yet
the current line is a heading, so the rejoiner skips the blank line and
stops without joining: the claim that it joins the two lines is false. -/
theorem page_break_bridging_cex :
    (pyStrip (String.data ("")) = [] ∧
     pyStrip (String.data ("we used x")) ≠ [] ∧
     (match pyStrip (String.data ("we used x")) with
      | c :: _ => c.isLower | [] => false) = true ∧
     ends_sentence (String.data ("2. Methods")) = false ∧
     is_heading (pyStrip (String.data ("we used x"))) = false) ∧
    rejoinLines [String.data ("2. Methods"), String.data (""),
        String.data ("we used x")] =
      [String.data ("2. Methods"), String.data ("we used x")] ∧
    rejoinLines [String.data ("2. Methods"), String.data (""),
        String.data ("we used x")] ≠
      [String.data ("2. Methods we used x")] := by
  refine ⟨by decide, ?_, by decide⟩
  rw [rejoinLines_cons]
  decide

/-- C3, amended: when the line after the current line L is blank, a line
A exists two positions ahead, A strips to a non-empty string starting
with a lower-case letter, L does not end a sentence, A is not a heading,
and additionally L itself is not a heading, the rejoiner skips the blank
line and joins L with A (dropping a word-break hyphen, otherwise with a
single space) and continues extending; when the blank-bridging guard
fails, and also when no line exists two positions ahead, extension of L
stops. -/
theorem page_break_bridging :
    (∀ (line next after : List Char) (rest : List (List Char)),
      pyStrip next = [] →
      pyStrip after ≠ [] →
      (match pyStrip after with | c :: _ => c.isLower | [] => false) = true →
      ends_sentence line = false →
      is_heading (pyStrip after) = false →
      is_heading line = false →
      extend line (next :: after :: rest) =
        (if (line.getLast? = some '-' && !(line.reverse.take 2 = ['-', ' ']))
        then extend (line.dropLast ++ pyStrip after) rest
        else extend (line ++ [' '] ++ pyStrip after) rest)) ∧
    (∀ (line next after : List Char) (rest : List (List Char)),
      pyStrip next = [] →
      ¬(pyStrip after ≠ [] ∧
        (match pyStrip after with | c :: _ => c.isLower | [] => false) = true ∧
        ends_sentence line = false ∧ is_heading (pyStrip after) = false) →
      extend line (next :: after :: rest) = (line, next :: after :: rest)) ∧
    (∀ (line next : List Char), pyStrip next = [] →
      extend line [next] = (line, [next])) := by
  refine ⟨?_, ?_, ?_⟩
  · intro line next after rest hb hne hlow hes hah hlh
    conv_lhs => rw [extend.eq_def]
    dsimp only
    rw [if_pos hb]
    have hg : (decide (pyStrip after ≠ []) &&
        (match pyStrip after with | c :: tail => c.isLower | [] => false) &&
        !ends_sentence line && !is_heading (pyStrip after)) = true := by
      simp [hne, hlow, hes, hah]
    rw [if_pos hg, if_neg (by simp [hlh]), if_neg (by simp [hah])]
    by_cases hhy : (decide (line.getLast? = some '-') &&
        !decide (List.take 2 line.reverse = ['-', ' '])) = true
    · rw [if_pos hhy, if_pos hhy]
    · rw [if_neg hhy, if_neg hhy, if_pos (by simp [hes])]
  · intro line next after rest hb hguard
    conv_lhs => rw [extend.eq_def]
    dsimp only
    rw [if_pos hb]
    have hg : (decide (pyStrip after ≠ []) &&
        (match pyStrip after with | c :: tail => c.isLower | [] => false) &&
        !ends_sentence line && !is_heading (pyStrip after)) = false := by
      by_cases hn : pyStrip after = []
      · simp [hn]
      · by_cases hl : (match pyStrip after with
            | c :: tail => c.isLower | [] => false) = true
        · by_cases he : ends_sentence line = true
          · simp [he]
          · by_cases hh : is_heading (pyStrip after) = true
            · simp [hh]
            · exact absurd ⟨hn, hl, by simpa using he, by simpa using hh⟩ hguard
        · rw [Bool.not_eq_true] at hl
          simp [hl]
    rw [if_neg (by intro hc; rw [hg] at hc; exact Bool.false_ne_true hc)]
  · intro line next hb
    conv_lhs => rw [extend.eq_def]
    dsimp only
    rw [if_pos hb]

/-- Witness for C3 at the page-break example of the specification: the
two prose lines separated by a blank line join into one logical line. -/
theorem page_break_bridging_witness :
    extend (String.data ("erosion rates increased over the study"))
      [String.data (""), String.data ("period due to storm activity.")] =
      (String.data
        ("erosion rates increased over the study period due to storm activity."),
        []) := by
  rw [page_break_bridging.1 _ _ _ _ (by decide) (by decide) (by decide)
    (by decide) (by decide) (by decide)]
  decide

/-- C4, counterexample: a pair of consecutive non-heading lines whose
first ends with a hyphen not preceded by a space, but whose second is
blank: the rejoiner stops instead of dropping the hyphen and
concatenating, so the claim quantified over every such pair is false. -/
theorem hyphen_join_cex :
    (is_heading (pyStrip (String.data ("sedi-"))) = false ∧
     is_heading (pyStrip (String.data (""))) = false ∧
     (String.data ("sedi-")).getLast? = some '-' ∧
     (String.data ("sedi-")).reverse.take 2 ≠ ['-', ' ']) ∧
    rejoinLines [String.data ("sedi-"), String.data ("")] =
      [String.data ("sedi-"), String.data ("")] ∧
    rejoinLines [String.data ("sedi-"), String.data ("")] ≠
      [String.data ("sedi")] := by
  refine ⟨by decide, ?_, by decide⟩
  rw [rejoinLines_cons]
  decide

/-- C4, amended: for a pair of consecutive non-heading lines where the
second strips to a non-empty string and the first ends with a hyphen not
preceded by a space, the rejoiner drops the hyphen, concatenates the
stripped next line with no inserted space, and continues extending from
the merged line. -/
theorem hyphen_word_break_join :
    ∀ (line next : List Char) (rest : List (List Char)),
      pyStrip next ≠ [] →
      is_heading line = false →
      is_heading (pyStrip next) = false →
      line.getLast? = some '-' →
      line.reverse.take 2 ≠ ['-', ' '] →
      extend line (next :: rest) = extend (line.dropLast ++ pyStrip next) rest := by
  intro line next rest hne hlh hnh hh1 hh2
  conv_lhs => rw [extend.eq_def]
  dsimp only
  rw [if_neg hne, if_neg (by simp [hlh]), if_neg (by simp [hnh]),
    if_pos (by simp [hh1, hh2])]

/-- Witness for C4 at the hyphen example of the specification. -/
theorem hyphen_word_break_join_witness :
    extend (String.data ("sedi-")) [String.data ("ment transport")] =
      (String.data ("sediment transport"), []) := by
  rw [hyphen_word_break_join _ _ _ (by decide) (by decide) (by decide)
    (by decide) (by decide)]
  decide

/-- C6, counterexample: the input has a run of four consecutive newlines
between the content characters a and b, yet the cleaned text is a b with
a single space and no newline at all: the rejoin pass bridged across the
blank line left by the newline collapse, so the run does not become
exactly one blank line between the surrounding content. -/
theorem whitespace_normalization_cex :
    clean_text ("a\n\n\n\nb") = ("a b") ∧
    '\n' ∉ (clean_text ("a\n\n\n\nb")).data := by
  constructor
  · decide
  · decide

/-- C6, amended: at the newline-collapsing pass, a run of two or more
newlines between content that does not itself touch a newline collapses
to exactly one blank line, two newline characters; in the final output
the rejoin pass may remove such a blank line entirely, but the cleaned
text never contains three consecutive newlines, so it has at most one
blank line between paragraphs, and it is stripped, so it has no leading
or trailing blank lines. -/
theorem whitespace_normalization (k : Nat) (a b : List Char) (s : String)
    (hk : 2 ≤ k) (ha : a.getLast? ≠ some '\n') (hb : b.head? ≠ some '\n') :
    collapseNL (a ++ (List.replicate k '\n' ++ b)) =
      collapseNL a ++ '\n' :: '\n' :: collapseNL b ∧
    noTripleNL (clean_text s).data ∧
    trimmedLine (clean_text s).data := by
  refine ⟨?_, ?_, ?_⟩
  · rw [collapseNL_append a _ ha, collapseNL_replicate k b hk hb]
  · rw [clean_text_data]
    exact (cleanTextChars_shape s.data).1
  · rw [clean_text_data]
    exact (cleanTextChars_shape s.data).2.1

/-- Witness for C6 at a four-newline run between x and y. -/
theorem whitespace_normalization_witness :
    (2 ≤ 4 ∧ (String.data ("x")).getLast? ≠ some '\n' ∧
      (String.data ("y")).head? ≠ some '\n') ∧
    (collapseNL (String.data ("x") ++
        (List.replicate 4 '\n' ++ String.data ("y"))) =
      collapseNL (String.data ("x")) ++
        '\n' :: '\n' :: collapseNL (String.data ("y")) ∧
    noTripleNL (clean_text ("a\n\nb")).data ∧
    trimmedLine (clean_text ("a\n\nb")).data) :=
  ⟨⟨by decide, by decide, by decide⟩,
    whitespace_normalization 4 (String.data ("x")) (String.data ("y"))
      ("a\n\nb") (by decide) (by decide) (by decide)⟩

/-- C10: for every input string the cleaned text contains no tab
character and no two adjacent spaces, and every line of the cleaned text
equals its own stripped form, so it has no leading or trailing
whitespace. -/
theorem output_whitespace_invariant (s : String) :
    '\t' ∉ (clean_text s).data ∧
    noDoubleSpace (clean_text s).data ∧
    ∀ l ∈ splitNL (clean_text s).data, pyStrip l = l := by
  rw [clean_text_data]
  obtain ⟨-, -, htab, hdd, hlines⟩ := cleanTextChars_shape s.data
  exact ⟨htab, hdd, fun l hl => pyStrip_eq_self l (hlines l hl).1⟩

end Hearsay
